import Mathlib

/-!
# Verification of the meal-planning core engines

Shallow embedding of the dish-distribution and variety-analysis engines of
the meal-planning repository, together with proofs of the specified
properties.

Source files embedded:
- `meal_planning/core/catalogue/enums.py` (taxonomy)
- `meal_planning/core/catalogue/models.py` (`Dish`)
- `meal_planning/core/planning/models.py` (`WeekPlan`, `MealPlan`, `Shortlist`)
- `meal_planning/core/planning/operations/distribution.py` (`distribute_dishes`)
- `meal_planning/core/planning/operations/analysis.py` (`calculate_variety_score`,
  `assess_variety`, `suggest_improvements`)

Modelling conventions:
- Python `dict` objects keyed by strings are modelled as association lists
  (`List (String × Nat)`) with the dict update `d[k] = d.get(k, 0) + 1`
  modelled by `ucInc` (update the unique existing entry in place, append a
  fresh entry at the end otherwise), which matches insertion-order
  preserving dict semantics.
- Python `float` scores in the distribution engine are sums of integers,
  `+0.5` and `-1.0`; every value is an exact multiple of `1/2` well inside
  the range where doubles are exact, so comparisons of twice the score as
  integers (`score2`) coincide with the Python float comparisons.
- Python floats in the variety-score formula are IEEE-754 binary64 values,
  i.e. exact rationals; each float operation is modelled exactly by
  applying `fl` — correctly rounded binary64 (round to nearest, ties to
  even), implemented computably over `ℚ` — to the exact result of the
  operation.  Python int truncation `int(...)` is modelled by `pyInt`
  (truncation toward zero).
- Python `int` parameters of `distribute_dishes` are modelled as `Int`;
  `for _ in range(n)` performs `n.toNat` iterations, as in Python.
-/

set_option linter.unusedVariables false
set_option maxRecDepth 4000
set_option exponentiation.threshold 1200

/- Batteries marks the `Rat` field operations `@[irreducible]` to keep
`simp` from unfolding them; concrete evaluation of the binary64 rounding
model below (by `decide`) needs them reducible again. -/
set_option allowUnsafeReducibility true in
attribute [semireducible] Rat.mul Rat.add Rat.sub Rat.inv

namespace MealPlanning

/-! ## Taxonomy (`core/catalogue/enums.py`) -/

/-- Food type categories (`Category` in `enums.py`). -/
inductive Category where
  | greens
  | legumes
  | grains
  | alliums
  | cruciferous
  | fresh_herbs
  | seeds
  | fermented
  | root_veg
  | dairy
deriving DecidableEq, Repr, Fintype

/-- Binary regional classification (`Region` in `enums.py`). -/
inductive Region where
  | eastern
  | western
deriving DecidableEq, Repr, Fintype

/-- Granular cuisine types (`Cuisine` in `enums.py`). -/
inductive Cuisine where
  | korean
  | japanese
  | chinese
  | thai
  | vietnamese
  | indian
  | italian
  | french
  | american
  | mexican
  | mediterranean
deriving DecidableEq, Repr, Fintype

/-- The `CUISINE_REGION` mapping of `enums.py`: cuisine → region. -/
def CUISINE_REGION : Cuisine → Region
  | .korean => .eastern
  | .japanese => .eastern
  | .chinese => .eastern
  | .thai => .eastern
  | .vietnamese => .eastern
  | .indian => .eastern
  | .italian => .western
  | .french => .western
  | .american => .western
  | .mexican => .western
  | .mediterranean => .western

/-- `.value` of a `Cuisine` member (`StrEnum` string value). -/
def cuisineStr : Cuisine → String
  | .korean => "korean"
  | .japanese => "japanese"
  | .chinese => "chinese"
  | .thai => "thai"
  | .vietnamese => "vietnamese"
  | .indian => "indian"
  | .italian => "italian"
  | .french => "french"
  | .american => "american"
  | .mexican => "mexican"
  | .mediterranean => "mediterranean"

/-- `.value` of a `Region` member. -/
def regionStr : Region → String
  | .eastern => "eastern"
  | .western => "western"

/-- `.value` of a `Category` member. -/
def categoryStr : Category → String
  | .greens => "greens"
  | .legumes => "legumes"
  | .grains => "grains"
  | .alliums => "alliums"
  | .cruciferous => "cruciferous"
  | .fresh_herbs => "fresh_herbs"
  | .seeds => "seeds"
  | .fermented => "fermented"
  | .root_veg => "root_veg"
  | .dairy => "dairy"

/-! ## Dish (`core/catalogue/models.py`) -/

/-- The `Dish` pydantic model: frozen record.  Equality of pydantic models
is structural over all fields, so we keep every field that participates in
`==` (used by `list.remove` in the distribution engine). -/
structure Dish where
  uid : String
  name : String
  categories : List Category
  cuisine : Cuisine
  tags : List String
  recipe_reference : String
deriving DecidableEq, Repr

/-- `Dish.region` property: derived from cuisine via `CUISINE_REGION`. -/
def Dish.region (d : Dish) : Region := CUISINE_REGION d.cuisine

/-! ## Association-list counters (Python `dict[str, int]` used as tallies)

`ucInc uc k` models `uc[k] = uc.get(k, 0) + 1`; `ucGet uc k` models
`uc.get(k, 0)`. -/

/-- `uc.get(k, 0)` on an insertion-ordered dict modelled as an assoc list. -/
def ucGet : List (String × Nat) → String → Nat
  | [], _ => 0
  | p :: rest, k => if p.1 = k then p.2 else ucGet rest k

/-- `uc[k] = uc.get(k, 0) + 1`: increment the existing entry in place, or
append a fresh `(k, 1)` entry at the end (Python dicts preserve insertion
order). -/
def ucInc : List (String × Nat) → String → List (String × Nat)
  | [], k => [(k, 1)]
  | p :: rest, k => if p.1 = k then (p.1, p.2 + 1) :: rest else p :: ucInc rest k

/-- Keys of the dict, in insertion order. -/
def ucKeys (uc : List (String × Nat)) : List String := uc.map Prod.fst

/-- `collections.Counter(l)` (also a fold of `d[k] = d.get(k,0)+1` over `l`). -/
def buildCounter (l : List String) : List (String × Nat) := l.foldl ucInc []

@[simp] theorem ucKeys_nil : ucKeys [] = [] := rfl

@[simp] theorem ucKeys_cons (p : String × Nat) (rest : List (String × Nat)) :
    ucKeys (p :: rest) = p.1 :: ucKeys rest := rfl

theorem ucGet_ucInc (uc : List (String × Nat)) (k k' : String) :
    ucGet (ucInc uc k) k' = if k' = k then ucGet uc k' + 1 else ucGet uc k' := by
  induction uc with
  | nil =>
    by_cases h : k' = k
    · subst h; simp [ucInc, ucGet]
    · simp [ucInc, ucGet, h, Ne.symm h]
  | cons p rest ih =>
    obtain ⟨a, b⟩ := p
    by_cases hp : a = k
    · subst hp
      by_cases h : k' = a
      · subst h; simp [ucInc, ucGet]
      · simp [ucInc, ucGet, h, Ne.symm h]
    · by_cases h : a = k'
      · subst h
        have hne : ¬ a = k := hp
        simp [ucInc, ucGet, hp, hne, fun hh => hne (hh : a = k)]
      · simp [ucInc, ucGet, hp, h, ih]

theorem ucKeys_ucInc (uc : List (String × Nat)) (k : String) :
    ucKeys (ucInc uc k) =
      if k ∈ ucKeys uc then ucKeys uc else ucKeys uc ++ [k] := by
  induction uc with
  | nil => simp [ucInc]
  | cons p rest ih =>
    obtain ⟨a, b⟩ := p
    by_cases hp : a = k
    · subst hp
      simp [ucInc]
    · have h1 : ucInc ((a, b) :: rest) k = (a, b) :: ucInc rest k := by
        simp [ucInc, hp]
      rw [h1, ucKeys_cons, ih]
      by_cases hm : k ∈ ucKeys rest
      · simp [hm, Ne.symm hp]
      · simp [hm, Ne.symm hp]

theorem mem_ucKeys_ucInc (uc : List (String × Nat)) (k k' : String) :
    k' ∈ ucKeys (ucInc uc k) ↔ k' ∈ ucKeys uc ∨ k' = k := by
  rw [ucKeys_ucInc]
  by_cases hm : k ∈ ucKeys uc
  · simp only [if_pos hm]
    constructor
    · exact Or.inl
    · rintro (h | h)
      · exact h
      · exact h ▸ hm
  · simp [if_neg hm]

theorem ucKeys_ucInc_nodup (uc : List (String × Nat)) (k : String)
    (h : (ucKeys uc).Nodup) : (ucKeys (ucInc uc k)).Nodup := by
  rw [ucKeys_ucInc]
  by_cases hm : k ∈ ucKeys uc
  · simpa [if_pos hm] using h
  · rw [if_neg hm]
    simp only [List.nodup_append, List.nodup_singleton, true_and, and_true, h]
    intro a ha hak
    have hak' : a = k := by simpa using hak
    exact hm (hak' ▸ ha)

theorem entry_mem_of_nodup (uc : List (String × Nat)) (k : String) (n : Nat)
    (h : (ucKeys uc).Nodup) :
    ((k, n) ∈ uc ↔ (k ∈ ucKeys uc ∧ ucGet uc k = n)) := by
  induction uc with
  | nil => simp [ucGet]
  | cons p rest ih =>
    obtain ⟨a, b⟩ := p
    rw [ucKeys_cons] at h
    have hnd := List.nodup_cons.mp h
    by_cases hk : a = k
    · subst hk
      have hnotin : ∀ m, (a, m) ∉ rest := by
        intro m hm
        exact hnd.1 (by simpa [ucKeys] using List.mem_map_of_mem Prod.fst hm)
      have hkey : a ∈ ucKeys ((a, b) :: rest) := by
        rw [ucKeys_cons]; exact List.mem_cons_self _ _
      have hget : ucGet ((a, b) :: rest) a = b := by simp [ucGet]
      constructor
      · intro hmem
        rcases List.mem_cons.mp hmem with heq | hmem'
        · have hnb : n = b := by simpa using congrArg Prod.snd heq
          exact ⟨hkey, by rw [hget, hnb]⟩
        · exact absurd hmem' (hnotin n)
      · rintro ⟨-, hg⟩
        rw [hget] at hg
        subst hg
        exact List.mem_cons_self _ _
    · constructor
      · intro hmem
        rcases List.mem_cons.mp hmem with heq | hmem'
        · exact absurd (congrArg Prod.fst heq) (fun hh => hk hh.symm)
        · obtain ⟨hm, hg⟩ := (ih hnd.2).mp hmem'
          refine ⟨?_, ?_⟩
          · rw [ucKeys_cons]; exact List.mem_cons.mpr (Or.inr hm)
          · simpa [ucGet, hk] using hg
      · rintro ⟨hmem, hg⟩
        have hmem' : k ∈ ucKeys rest := by
          rcases List.mem_cons.mp (by rw [ucKeys_cons] at hmem; exact hmem) with h' | h'
          · exact absurd h'.symm hk
          · exact h'
        have hg' : ucGet rest k = n := by simpa [ucGet, hk] using hg
        exact List.mem_cons.mpr (Or.inr ((ih hnd.2).mpr ⟨hmem', hg'⟩))

/-- The invariant tying an insertion-counting dict to the multiset of
placements it was built from. -/
def CounterFor (uc : List (String × Nat)) (placed : List String) : Prop :=
  (∀ u, ucGet uc u = placed.count u) ∧ (ucKeys uc).Nodup ∧
    (∀ u, u ∈ ucKeys uc ↔ u ∈ placed)

theorem counterFor_nil : CounterFor [] [] := by
  refine ⟨fun u => by simp [ucGet], by simp [ucKeys], fun u => by simp [ucKeys]⟩

theorem counterFor_inc {uc : List (String × Nat)} {placed : List String}
    (h : CounterFor uc placed) (u : String) :
    CounterFor (ucInc uc u) (placed ++ [u]) := by
  obtain ⟨hget, hnd, hmem⟩ := h
  refine ⟨?_, ucKeys_ucInc_nodup uc u hnd, ?_⟩
  · intro v
    rw [ucGet_ucInc, List.count_append]
    by_cases hv : v = u
    · subst hv; simp [hget v, List.count_singleton]
    · have : List.count v [u] = 0 := by
        simp [List.count_singleton]
        exact fun h' => absurd h'.symm hv
      simp [hv, hget v, this]
  · intro v
    rw [mem_ucKeys_ucInc]
    simp [hmem v]

theorem counterFor_foldl {uc : List (String × Nat)} {placed : List String}
    (h : CounterFor uc placed) (l : List String) :
    CounterFor (l.foldl ucInc uc) (placed ++ l) := by
  induction l generalizing uc placed with
  | nil => simpa using h
  | cons x xs ih =>
    have := ih (counterFor_inc h x)
    simpa using this

theorem counterFor_buildCounter (l : List String) :
    CounterFor (buildCounter l) l := by
  have := counterFor_foldl counterFor_nil l
  simpa [buildCounter] using this

/-- Entries of a counter: `(u, n)` is an entry iff `u` occurs and `n` is its
occurrence count. -/
theorem counter_entry_iff {uc : List (String × Nat)} {placed : List String}
    (h : CounterFor uc placed) (u : String) (n : Nat) :
    ((u, n) ∈ uc ↔ (u ∈ placed ∧ placed.count u = n)) := by
  obtain ⟨hget, hnd, hmem⟩ := h
  rw [entry_mem_of_nodup uc u n hnd, hmem, hget]

/-! ## Planning models (`core/planning/models.py`) -/

/-- `WeekPlan`: a week's worth of dishes, just an ordered list of dish UIDs. -/
structure WeekPlan where
  dishes : List String
deriving DecidableEq, Repr

/-- `MealPlan`: a plan for N weeks. -/
structure MealPlan where
  uid : String
  name : String
  weeks : List WeekPlan
deriving DecidableEq, Repr

/-- `MealPlan.all_dish_uids`: all dish UIDs across all weeks, in order. -/
def MealPlan.all_dish_uids (p : MealPlan) : List String :=
  (p.weeks.map WeekPlan.dishes).flatten

/-- The error raised by `MealPlan.with_week`: Python raises the distinct
builtin exception class `ValueError` (not a bare `Exception`), carrying a
message. -/
inductive PlanError where
  | valueError (msg : String)
deriving DecidableEq, Repr

/-- `MealPlan.with_week`: return a new plan with the 1-indexed week
`week_num` replaced, or raise `ValueError` when `week_num` is outside
`[1, len(self.weeks)]`.  `week_num` is a Python `int`, modelled as `Int`. -/
def MealPlan.with_week (p : MealPlan) (week_num : Int) (week : WeekPlan) :
    Except PlanError MealPlan :=
  if 1 ≤ week_num ∧ week_num ≤ (p.weeks.length : Int) then
    .ok { p with weeks := p.weeks.set (week_num - 1).toNat week }
  else
    .error (.valueError
      ("Week number must be 1-" ++ toString p.weeks.length ++ ", got " ++
        toString week_num))

/-- `Shortlist`: user's selection of dish UIDs. -/
structure Shortlist where
  dish_uids : List String
deriving DecidableEq, Repr

/-- `Shortlist.add`: no-op if already present, else append. -/
def Shortlist.add (s : Shortlist) (dish_uid : String) : Shortlist :=
  if dish_uid ∈ s.dish_uids then s else ⟨s.dish_uids ++ [dish_uid]⟩

/-- `Shortlist.remove`: keep every UID different from `dish_uid`. -/
def Shortlist.remove (s : Shortlist) (dish_uid : String) : Shortlist :=
  ⟨s.dish_uids.filter (fun uid => uid ≠ dish_uid)⟩

/-- `Shortlist.clear`: reset to empty. -/
def Shortlist.clear (s : Shortlist) : Shortlist := ⟨[]⟩

/-- `Shortlist.__contains__`. -/
def Shortlist.containsUid (s : Shortlist) (dish_uid : String) : Prop :=
  dish_uid ∈ s.dish_uids

/-- `Shortlist.__len__`. -/
def Shortlist.size (s : Shortlist) : Nat := s.dish_uids.length

/-! ## Distribution engine (`core/planning/operations/distribution.py`) -/

/-- `DistributionResult`: weekly UID assignments plus discard/reuse
diagnostics. -/
structure DistributionResult where
  weeks : List (List String)
  discarded : List String
  reused : List String
deriving DecidableEq, Repr

/-- `_WeekState`: per-week mutable tracking state. -/
structure WeekState where
  categoriesUsed : List Category
  cuisinesUsed : List Cuisine
  dishUids : List String
deriving DecidableEq, Repr

/-- `_WeekState()` default construction: all empty. -/
def WeekState.empty : WeekState := ⟨[], [], []⟩

/-- `_WeekState.add_dish`: record a dish's uid, categories and cuisine.
Python sets are modelled as dedup-preserving lists (add if absent). -/
def WeekState.add_dish (ws : WeekState) (d : Dish) : WeekState :=
  { categoriesUsed :=
      d.categories.foldl
        (fun acc c => if c ∈ acc then acc else acc ++ [c]) ws.categoriesUsed
    cuisinesUsed :=
      if d.cuisine ∈ ws.cuisinesUsed then ws.cuisinesUsed
      else ws.cuisinesUsed ++ [d.cuisine]
    dishUids := ws.dishUids ++ [d.uid] }

/-- Twice the Python float score of `_score_dish`.  Every Python score is an
exact multiple of `0.5` (sum of integers, `+0.5`, `-1.0`) well inside the
exact range of doubles, so comparing doubled scores as integers coincides
exactly with the float comparisons `max` performs. -/
def score2 (d : Dish) (ws : WeekState) (recently_used : List String) : Int :=
  2 * ((d.categories.dedup.filter (fun c => c ∉ ws.categoriesUsed)).length : Int)
    + (if d.cuisine ∈ ws.cuisinesUsed then 0 else 1)
    - (if d.uid ∈ recently_used then 2 else 0)

/-- `_pick_best`: first candidate attaining the maximal score (Python `max`
keeps the first maximum; it replaces the running best only on a strictly
greater key). -/
def pickBest (candidates : List Dish) (ws : WeekState)
    (recently_used : List String) : Option Dish :=
  candidates.foldl
    (fun acc d =>
      match acc with
      | none => some d
      | some b =>
        if score2 b ws recently_used < score2 d ws recently_used then some d
        else some b)
    none

/-- State threaded through one regional-quota loop (`for _ in
range(eastern_per_week)` and the western twin). -/
structure PickState where
  ws : WeekState
  uc : List (String × Nat)
  avail : List Dish
  availAll : List Dish
deriving Repr

/-- One regional quota loop of `distribute_dishes` (steps "Pick Eastern
dishes" / "Pick Western dishes").  `fullPool` is the complete regional list
(`eastern_dishes` / `western_dishes`), used as fallback when the unused
pool is exhausted.  The fuel is the quota (`range(n)` iterations). -/
def quotaLoop (fullPool : List Dish) (recently_used : List String) :
    Nat → PickState → PickState
  | 0, s => s
  | n + 1, s =>
    let pool := if s.avail.isEmpty then fullPool else s.avail
    if pool.isEmpty then s
    else
      match pickBest pool s.ws recently_used with
      | none => quotaLoop fullPool recently_used n s
      | some best =>
        quotaLoop fullPool recently_used n
          { ws := s.ws.add_dish best
            uc := ucInc s.uc best.uid
            avail := s.avail.erase best
            availAll := s.availAll.erase best }

/-- State threaded through the remainder-filling `while` loop. -/
structure FillState where
  ws : WeekState
  uc : List (String × Nat)
  availAll : List Dish
deriving Repr

/-- The "Fill remaining slots" `while len(...) < per_week` loop.  Each
productive iteration appends exactly one dish, so `per_week.toNat` fuel is
enough to reach the loop's exit condition; every non-productive branch
returns (`break`). -/
def fillLoop (all_dishes_list : List Dish) (per_week : Int)
    (recently_used : List String) : Nat → FillState → FillState
  | 0, s => s
  | n + 1, s =>
    if (s.ws.dishUids.length : Int) < per_week then
      let pool0 := if s.availAll.isEmpty then all_dishes_list else s.availAll
      if pool0.isEmpty then s
      else
        let pool := pool0.filter (fun d => !(s.ws.dishUids.contains d.uid))
        if pool.isEmpty then s
        else
          match pickBest pool s.ws recently_used with
          | none => s
          | some best =>
            fillLoop all_dishes_list per_week recently_used n
              { ws := s.ws.add_dish best
                uc := ucInc s.uc best.uid
                availAll := s.availAll.erase best }
    else s

/-- State carried across weeks of `distribute_dishes`. -/
structure DistState where
  uc : List (String × Nat)
  recently_used : List String
  weekResults : List (List String)
deriving Repr

/-- The body of `for week_idx in range(weeks)`: build the per-week pools of
not-yet-used dishes, fill the Eastern quota, the Western quota, then the
remaining slots, record the week and roll the recently-used set. -/
def weekStep (dishes eastern western : List Dish)
    (per_week : Int) (epw wpw : Nat) (s : DistState) : DistState :=
  let availE := eastern.filter (fun d => ucGet s.uc d.uid == 0)
  let availW := western.filter (fun d => ucGet s.uc d.uid == 0)
  let availAll := dishes.filter (fun d => ucGet s.uc d.uid == 0)
  let q1 := quotaLoop eastern s.recently_used epw
    ⟨WeekState.empty, s.uc, availE, availAll⟩
  let q2 := quotaLoop western s.recently_used wpw
    ⟨q1.ws, q1.uc, availW, q1.availAll⟩
  let f := fillLoop dishes per_week s.recently_used per_week.toNat
    ⟨q2.ws, q2.uc, q2.availAll⟩
  { uc := f.uc
    recently_used := f.ws.dishUids
    weekResults := s.weekResults ++ [f.ws.dishUids] }

/-- The `for week_idx in range(weeks)` loop. -/
def distLoop (dishes eastern western : List Dish)
    (per_week : Int) (epw wpw : Nat) : Nat → DistState → DistState
  | 0, s => s
  | n + 1, s =>
    distLoop dishes eastern western per_week epw wpw n
      (weekStep dishes eastern western per_week epw wpw s)

/-- `distribute_dishes`.  All four scheduling parameters are Python `int`s,
modelled as `Int`; `range(n)` loops run `n.toNat` times.  Python computes
`all_input_uids` as a hash set with unspecified iteration order and
iterates it to build `discarded`; this is modelled membership-faithfully by
deduplicating in input order. -/
def distribute_dishes (dishes : List Dish) (weeks per_week : Int)
    (eastern_per_week western_per_week : Int) : DistributionResult :=
  let eastern_dishes := dishes.filter (fun d => d.region == Region.eastern)
  let western_dishes := dishes.filter (fun d => !(d.region == Region.eastern))
  let final := distLoop dishes eastern_dishes western_dishes per_week
    eastern_per_week.toNat western_per_week.toNat weeks.toNat ⟨[], [], []⟩
  let all_input_uids := (dishes.map Dish.uid).dedup
  let all_used_uids := final.weekResults.flatten
  { weeks := final.weekResults
    discarded := all_input_uids.filter (fun u => !(all_used_uids.contains u))
    reused := (final.uc.filter (fun p => 1 < p.2)).map Prod.fst }

/-! ## Distribution engine: invariants -/

theorem quotaLoop_counter (fullPool : List Dish) (recent : List String) :
    ∀ (fuel : Nat) (s : PickState) (pre : List String),
      CounterFor s.uc (pre ++ s.ws.dishUids) →
      CounterFor (quotaLoop fullPool recent fuel s).uc
        (pre ++ (quotaLoop fullPool recent fuel s).ws.dishUids) := by
  intro fuel
  induction fuel with
  | zero => intro s pre h; simpa [quotaLoop] using h
  | succ n ih =>
    intro s pre h
    rw [quotaLoop]
    repeat' (first | split | dsimp only)
    all_goals
      first
      | exact h
      | exact ih s pre h
      | (rename_i best hpb
         apply ih
         have h' := counterFor_inc h best.uid
         simpa [WeekState.add_dish, List.append_assoc] using h')

theorem fillLoop_counter (allList : List Dish) (per_week : Int)
    (recent : List String) :
    ∀ (fuel : Nat) (s : FillState) (pre : List String),
      CounterFor s.uc (pre ++ s.ws.dishUids) →
      CounterFor (fillLoop allList per_week recent fuel s).uc
        (pre ++ (fillLoop allList per_week recent fuel s).ws.dishUids) := by
  intro fuel
  induction fuel with
  | zero => intro s pre h; simpa [fillLoop] using h
  | succ n ih =>
    intro s pre h
    rw [fillLoop]
    repeat' (first | split | dsimp only)
    all_goals
      first
      | exact h
      | (rename_i best hpb
         apply ih
         have h' := counterFor_inc h best.uid
         simpa [WeekState.add_dish, List.append_assoc] using h')

theorem weekStep_counter (dishes eastern western : List Dish)
    (per_week : Int) (epw wpw : Nat) (s : DistState)
    (h : CounterFor s.uc s.weekResults.flatten) :
    CounterFor (weekStep dishes eastern western per_week epw wpw s).uc
      (weekStep dishes eastern western per_week epw wpw s).weekResults.flatten := by
  have h0 : CounterFor s.uc
      (s.weekResults.flatten ++ (WeekState.empty).dishUids) := by
    simpa [WeekState.empty] using h
  have h1 := quotaLoop_counter eastern s.recently_used epw
    ⟨WeekState.empty, s.uc,
      eastern.filter (fun d => ucGet s.uc d.uid == 0),
      dishes.filter (fun d => ucGet s.uc d.uid == 0)⟩
    s.weekResults.flatten h0
  set q1 := quotaLoop eastern s.recently_used epw
    ⟨WeekState.empty, s.uc,
      eastern.filter (fun d => ucGet s.uc d.uid == 0),
      dishes.filter (fun d => ucGet s.uc d.uid == 0)⟩ with hq1
  have h2 := quotaLoop_counter western s.recently_used wpw
    ⟨q1.ws, q1.uc, western.filter (fun d => ucGet s.uc d.uid == 0), q1.availAll⟩
    s.weekResults.flatten h1
  set q2 := quotaLoop western s.recently_used wpw
    ⟨q1.ws, q1.uc, western.filter (fun d => ucGet s.uc d.uid == 0), q1.availAll⟩
    with hq2
  have h3 := fillLoop_counter dishes per_week s.recently_used per_week.toNat
    ⟨q2.ws, q2.uc, q2.availAll⟩ s.weekResults.flatten h2
  set f := fillLoop dishes per_week s.recently_used per_week.toNat
    ⟨q2.ws, q2.uc, q2.availAll⟩ with hf
  show CounterFor f.uc (s.weekResults ++ [f.ws.dishUids]).flatten
  simpa [List.flatten_append] using h3

theorem distLoop_counter (dishes eastern western : List Dish)
    (per_week : Int) (epw wpw : Nat) :
    ∀ (n : Nat) (s : DistState),
      CounterFor s.uc s.weekResults.flatten →
      CounterFor (distLoop dishes eastern western per_week epw wpw n s).uc
        ((distLoop dishes eastern western per_week epw wpw n s).weekResults.flatten) := by
  intro n
  induction n with
  | zero => intro s h; simpa [distLoop] using h
  | succ m ih =>
    intro s h
    show CounterFor
      (distLoop dishes eastern western per_week epw wpw m
        (weekStep dishes eastern western per_week epw wpw s)).uc _
    exact ih _ (weekStep_counter dishes eastern western per_week epw wpw s h)

theorem distLoop_weekResults_length (dishes eastern western : List Dish)
    (per_week : Int) (epw wpw : Nat) :
    ∀ (n : Nat) (s : DistState),
      ((distLoop dishes eastern western per_week epw wpw n s).weekResults.length)
        = s.weekResults.length + n := by
  intro n
  induction n with
  | zero => intro s; simp [distLoop]
  | succ m ih =>
    intro s
    show ((distLoop dishes eastern western per_week epw wpw m
      (weekStep dishes eastern western per_week epw wpw s)).weekResults.length)
        = s.weekResults.length + (m + 1)
    rw [ih]
    simp [weekStep]
    omega

theorem pickBest_fold_mem :
    ∀ (l : List Dish) (ws : WeekState) (recent : List String)
      (acc : Option Dish) (b : Dish),
      l.foldl (fun acc d =>
        match acc with
        | none => some d
        | some c =>
          if score2 c ws recent < score2 d ws recent then some d
          else some c) acc = some b →
      b ∈ l ∨ acc = some b := by
  intro l
  induction l with
  | nil => intro ws recent acc b h; exact Or.inr (by simpa using h)
  | cons x xs ih =>
    intro ws recent acc b h
    rw [List.foldl_cons] at h
    rcases ih ws recent _ b h with hmem | hacc
    · exact Or.inl (List.mem_cons.mpr (Or.inr hmem))
    · cases acc with
      | none =>
        have hxb : x = b := by simpa using hacc
        exact Or.inl (by rw [← hxb]; exact List.mem_cons_self x xs)
      | some c =>
        by_cases hlt : score2 c ws recent < score2 x ws recent
        · have hxb : x = b := by simpa [hlt] using hacc
          exact Or.inl (by rw [← hxb]; exact List.mem_cons_self x xs)
        · have hcb : c = b := by simpa [hlt] using hacc
          exact Or.inr (by rw [hcb])

/-- A picked dish always comes from the candidate pool. -/
theorem pickBest_mem (l : List Dish) (ws : WeekState) (recent : List String)
    (b : Dish) (h : pickBest l ws recent = some b) : b ∈ l := by
  rcases pickBest_fold_mem l ws recent none b (by simpa [pickBest] using h)
    with hm | hc
  · exact hm
  · simp at hc

/-- The fill stage never places a dish already placed this week: it
preserves the no-duplicates property of the running week. -/
theorem fillLoop_nodup (allList : List Dish) (per_week : Int)
    (recent : List String) :
    ∀ (fuel : Nat) (s : FillState), s.ws.dishUids.Nodup →
      (fillLoop allList per_week recent fuel s).ws.dishUids.Nodup := by
  intro fuel
  induction fuel with
  | zero => intro s h; simpa [fillLoop] using h
  | succ n ih =>
    intro s h
    rw [fillLoop]
    repeat' (first | split | dsimp only)
    all_goals
      first
      | exact h
      | (rename_i best hpb
         apply ih
         have hbestmem := pickBest_mem _ _ _ _ hpb
         have hnotin : best.uid ∉ s.ws.dishUids := by
           have := List.of_mem_filter hbestmem
           simpa using this
         simp only [WeekState.add_dish]
         exact List.Nodup.append h (by simp) (by
           intro a ha hb
           have hab : a = best.uid := by simpa using hb
           exact hnotin (hab ▸ ha)))

/-! ## Variety analysis engine (`core/planning/operations/analysis.py`) -/

/-- `VarietyReport`: distributions, repeated-dish map, counts and score.
Python dicts are modelled as insertion-ordered assoc lists; the score is a
Python `int`. -/
structure VarietyReport where
  cuisine_distribution : List (String × Nat)
  region_distribution : List (String × Nat)
  category_distribution : List (String × Nat)
  repeated_dishes : List (String × Nat)
  unique_dish_count : Nat
  total_dish_count : Nat
  variety_score : Int
deriving DecidableEq, Repr

/-- The dict comprehension `{d.uid: d for d in dishes}`: on duplicate uids
the last dish wins, so lookup searches the reversed list. -/
def dishByUid (dishes : List Dish) (uid : String) : Option Dish :=
  dishes.reverse.find? (fun d => d.uid == uid)

/-- Python `int(x)` (truncation toward zero) on a real value, modelled
over `ℚ`. -/
def pyInt (q : ℚ) : Int := if 0 ≤ q then ⌊q⌋ else -⌊-q⌋

/-! ## IEEE-754 binary64 rounding

Python floats are IEEE-754 doubles and every arithmetic operation
(`+ - * /`, including `int / int` true division) is correctly rounded to
the nearest double with ties to even.  A double is an exact rational, so
the float program is modelled by exact rationals passed through `fl` — the
correctly-rounded binary64 value of an exact rational — after every
operation.  Comparisons (`min`, `<`) between Python ints and floats are
exact and need no rounding. -/

/-- Round a rational to the nearest integer, ties to even (the IEEE-754
default rounding direction). -/
def rne (r : ℚ) : ℤ :=
  if r - ⌊r⌋ < 1/2 then ⌊r⌋
  else if (1/2 : ℚ) < r - ⌊r⌋ then ⌊r⌋ + 1
  else if ⌊r⌋ % 2 = 0 then ⌊r⌋ else ⌊r⌋ + 1

theorem floor_le_rne (r : ℚ) : ⌊r⌋ ≤ rne r := by
  unfold rne
  split
  · exact le_rfl
  · split
    · omega
    · split
      · exact le_rfl
      · omega

theorem rne_le_floor_add_one (r : ℚ) : rne r ≤ ⌊r⌋ + 1 := by
  unfold rne
  split
  · omega
  · split
    · exact le_rfl
    · split
      · omega
      · exact le_rfl

theorem rne_nonneg (r : ℚ) (h : 0 ≤ r) : 0 ≤ rne r :=
  le_trans (Int.floor_nonneg.mpr h) (floor_le_rne r)

theorem rne_mono {r s : ℚ} (h : r ≤ s) : rne r ≤ rne s := by
  by_cases hf : ⌊r⌋ = ⌊s⌋
  · unfold rne
    rw [hf]
    have hfr : r - (⌊s⌋ : ℚ) ≤ s - (⌊s⌋ : ℚ) := by linarith
    by_cases h1 : r - (⌊s⌋ : ℚ) < 1/2
    · rw [if_pos h1]
      split
      · exact le_rfl
      · split
        · omega
        · split
          · exact le_rfl
          · omega
    · have h1s : ¬ (s - (⌊s⌋ : ℚ) < 1/2) := by
        push_neg at h1 ⊢
        linarith
      rw [if_neg h1, if_neg h1s]
      by_cases h2 : (1/2 : ℚ) < r - (⌊s⌋ : ℚ)
      · have h2s : (1/2 : ℚ) < s - (⌊s⌋ : ℚ) := by linarith
        rw [if_pos h2, if_pos h2s]
      · rw [if_neg h2]
        by_cases h2s : (1/2 : ℚ) < s - (⌊s⌋ : ℚ)
        · rw [if_pos h2s]
          split
          · omega
          · omega
        · rw [if_neg h2s]
  · have hlt : ⌊r⌋ < ⌊s⌋ := lt_of_le_of_ne (Int.floor_le_floor h) hf
    calc rne r ≤ ⌊r⌋ + 1 := rne_le_floor_add_one r
    _ ≤ ⌊s⌋ := by omega
    _ ≤ rne s := floor_le_rne s

/-- `2 ^ n` over `ℚ` for an integer exponent, computed through `Nat.pow`
(which evaluates fast) rather than the recursive `zpow`. -/
def pow2 (n : ℤ) : ℚ :=
  if 0 ≤ n then ((2 ^ n.toNat : ℕ) : ℚ) else ((2 ^ (-n).toNat : ℕ) : ℚ)⁻¹

theorem pow2_eq (n : ℤ) : pow2 n = (2:ℚ) ^ n := by
  rw [pow2]
  split
  · rename_i h
    push_cast
    rw [← zpow_natCast (2:ℚ) n.toNat, Int.toNat_of_nonneg h]
  · rename_i h
    push_cast
    rw [← zpow_natCast (2:ℚ) (-n).toNat, Int.toNat_of_nonneg (by omega),
      zpow_neg, inv_inv]

/-- Search the binade exponent upward from `e` (used for `1 ≤ q`). -/
def findEUp (q : ℚ) : Nat → ℤ → ℤ
  | 0, e => e
  | n + 1, e => if q < pow2 (e + 1) then e else findEUp q n (e + 1)

/-- Search the binade exponent downward from `e` (used for `q < 1`). -/
def findEDown (q : ℚ) : Nat → ℤ → ℤ
  | 0, e => e
  | n + 1, e => if pow2 e ≤ q then e else findEDown q n (e - 1)

/-- The binade exponent of a positive rational in the modelled range:
the `e` with `2^e ≤ q < 2^(e+1)`. -/
def findE (q : ℚ) : ℤ :=
  if 1 ≤ q then findEUp q 1100 0 else findEDown q 1100 0

theorem findEUp_bracket (q : ℚ) :
    ∀ (n : Nat) (e : ℤ), (2:ℚ) ^ e ≤ q → q < 2 ^ (e + (n : ℤ)) →
      (2:ℚ) ^ (findEUp q n e) ≤ q ∧ q < 2 ^ (findEUp q n e + 1) := by
  intro n
  induction n with
  | zero =>
    intro e h1 h2
    simp only [Nat.cast_zero, add_zero] at h2
    exact absurd (lt_of_le_of_lt h1 h2) (lt_irrefl _)
  | succ n ih =>
    intro e h1 h2
    rw [findEUp]
    simp only [pow2_eq]
    split
    · rename_i hlt
      exact ⟨h1, hlt⟩
    · rename_i hge
      push_neg at hge
      apply ih (e + 1) hge
      have harith : e + ((n : ℤ) + 1) = (e + 1) + (n : ℤ) := by ring
      have h2' : q < 2 ^ (e + ((n : ℤ) + 1)) := by
        have : ((n + 1 : Nat) : ℤ) = (n : ℤ) + 1 := by push_cast; ring
        rwa [this] at h2
      rwa [harith] at h2'

theorem findEDown_bracket (q : ℚ) :
    ∀ (n : Nat) (e : ℤ), q < 2 ^ (e + 1) → (2:ℚ) ^ (e - (n : ℤ)) ≤ q →
      (2:ℚ) ^ (findEDown q n e) ≤ q ∧ q < 2 ^ (findEDown q n e + 1) := by
  intro n
  induction n with
  | zero =>
    intro e h1 h2
    simp only [Nat.cast_zero, sub_zero] at h2
    exact ⟨h2, h1⟩
  | succ n ih =>
    intro e h1 h2
    rw [findEDown]
    simp only [pow2_eq]
    split
    · rename_i hle
      exact ⟨hle, h1⟩
    · rename_i hgt
      push_neg at hgt
      apply ih (e - 1)
      · have harith : (e - 1) + 1 = e := by ring
        rwa [harith]
      · have harith : (e - 1) - (n : ℤ) = e - ((n : ℤ) + 1) := by ring
        rw [harith]
        have : ((n + 1 : Nat) : ℤ) = (n : ℤ) + 1 := by push_cast; ring
        rwa [this] at h2

theorem findE_bracket (q : ℚ) (hlow : (2:ℚ) ^ (-1022 : ℤ) ≤ q)
    (hhigh : q < (2:ℚ) ^ (1024 : ℤ)) :
    (2:ℚ) ^ (findE q) ≤ q ∧ q < 2 ^ (findE q + 1) := by
  rw [findE]
  split
  · rename_i h1
    apply findEUp_bracket q 1100 0 (by simpa using h1)
    calc q < 2 ^ (1024 : ℤ) := hhigh
    _ ≤ 2 ^ ((0 : ℤ) + (1100 : ℤ)) := by
        apply zpow_le_zpow_right₀ (by norm_num)
        omega
    _ = 2 ^ ((0 : ℤ) + ((1100 : Nat) : ℤ)) := by norm_num
  · rename_i h1
    push_neg at h1
    apply findEDown_bracket q 1100 0
    · have h2 : (1 : ℚ) ≤ 2 ^ ((0 : ℤ) + 1) := by norm_num
      exact lt_of_lt_of_le h1 h2
    · have h2 : (2:ℚ) ^ ((0 : ℤ) - ((1100 : Nat) : ℤ)) ≤ 2 ^ (-1022 : ℤ) := by
        apply zpow_le_zpow_right₀ (by norm_num)
        norm_num
      exact le_trans h2 hlow

/-- Rounding `q` to the grid of multiples of `g`: nonnegativity. -/
theorem grid_nonneg (q g : ℚ) (hq : 0 ≤ q) (hg : 0 < g) :
    0 ≤ ((rne (q / g) : ℤ) : ℚ) * g :=
  mul_nonneg (by exact_mod_cast rne_nonneg _ (div_nonneg hq hg.le)) hg.le

/-- Rounding to a fixed grid is monotone. -/
theorem grid_mono {q r : ℚ} (g : ℚ) (hg : 0 < g) (h : q ≤ r) :
    ((rne (q / g) : ℤ) : ℚ) * g ≤ ((rne (r / g) : ℤ) : ℚ) * g := by
  apply mul_le_mul_of_nonneg_right _ hg.le
  have hdiv : q / g ≤ r / g := by gcongr
  exact_mod_cast rne_mono hdiv

/-- A value below the grid multiple `M * g` rounds to at most `M * g`. -/
theorem grid_ub (q g : ℚ) (M : ℤ) (hg : 0 < g) (h : q < (M : ℚ) * g) :
    ((rne (q / g) : ℤ) : ℚ) * g ≤ (M : ℚ) * g := by
  apply mul_le_mul_of_nonneg_right _ hg.le
  have hd : q / g < (M : ℚ) := by
    rw [div_lt_iff₀ hg]
    exact h
  have hfl : ⌊q / g⌋ < M := Int.floor_lt.mpr hd
  have h1 := rne_le_floor_add_one (q / g)
  exact_mod_cast (by omega : rne (q / g) ≤ M)

/-- A value at or above the grid multiple `M * g` rounds to at least
`M * g`. -/
theorem grid_lb (q g : ℚ) (M : ℤ) (hg : 0 < g) (h : (M : ℚ) * g ≤ q) :
    (M : ℚ) * g ≤ ((rne (q / g) : ℤ) : ℚ) * g := by
  apply mul_le_mul_of_nonneg_right _ hg.le
  have hd : (M : ℚ) ≤ q / g := by
    rw [le_div_iff₀ hg]
    exact h
  have hfl : M ≤ ⌊q / g⌋ := Int.le_floor.mpr hd
  have h1 := floor_le_rne (q / g)
  exact_mod_cast (by omega : M ≤ rne (q / g))

/-- Rounding onto the subnormal grid (spacing `2^-1074`). -/
def flSub (q : ℚ) : ℚ :=
  ((rne (q / pow2 (-1074)) : ℤ) : ℚ) * pow2 (-1074)

/-- Rounding onto the normal-range grid of the binade of `q`. -/
def flNormal (q : ℚ) : ℚ :=
  ((rne (q / pow2 (findE q - 52)) : ℤ) : ℚ) * pow2 (findE q - 52)

/-- Correctly rounded binary64 value of a positive rational.  Values at or
beyond `2^1024` (where the hardware overflows to infinity — unreachable in
this program, whose float values stay below 101) are left unrounded. -/
def flPos (q : ℚ) : ℚ :=
  if q < pow2 (-1022) then flSub q
  else if pow2 1024 ≤ q then q
  else flNormal q

/-- Correctly rounded binary64 value of an exact rational: the result of a
single Python float operation whose exact value is `q` (round to nearest,
ties to even). -/
def fl (q : ℚ) : ℚ :=
  if q = 0 then 0 else if 0 < q then flPos q else -(flPos (-q))

theorem two_zpow_pos (n : ℤ) : (0:ℚ) < 2 ^ n := zpow_pos (by norm_num) n

theorem two_zpow_mul (m n : ℤ) : (2:ℚ) ^ m * 2 ^ n = 2 ^ (m + n) :=
  (zpow_add₀ (by norm_num : (2:ℚ) ≠ 0) m n).symm

/-- `2^k` as the integer grid multiple `2^k * g` with `g = 2^(e-k')`. -/
theorem zpow_as_grid (k : Nat) (e : ℤ) :
    ((2 ^ k : ℤ) : ℚ) * 2 ^ (e - (k : ℤ)) = 2 ^ e := by
  push_cast
  rw [← zpow_natCast (2:ℚ) k, two_zpow_mul]
  congr 1
  ring

theorem flSub_nonneg (q : ℚ) (hq : 0 ≤ q) : 0 ≤ flSub q := by
  rw [flSub, pow2_eq]
  exact grid_nonneg q _ hq (two_zpow_pos _)

theorem flSub_le (q : ℚ) (hq : q < 2 ^ (-1022 : ℤ)) :
    flSub q ≤ 2 ^ (-1022 : ℤ) := by
  rw [flSub, pow2_eq]
  have key : ((2 ^ 52 : ℤ) : ℚ) * 2 ^ ((-1022 : ℤ) - (52 : ℤ)) =
      2 ^ (-1022 : ℤ) := zpow_as_grid 52 (-1022)
  have key' : ((-1022 : ℤ) - (52 : ℤ)) = (-1074 : ℤ) := by norm_num
  rw [key'] at key
  calc ((rne (q / 2 ^ (-1074 : ℤ)) : ℤ) : ℚ) * 2 ^ (-1074 : ℤ) ≤
      ((2 ^ 52 : ℤ) : ℚ) * 2 ^ (-1074 : ℤ) :=
    grid_ub q _ _ (two_zpow_pos _) (by rw [key]; exact hq)
  _ = 2 ^ (-1022 : ℤ) := key

theorem flNormal_nonneg (q : ℚ) (hq : 0 ≤ q) : 0 ≤ flNormal q := by
  rw [flNormal, pow2_eq]
  exact grid_nonneg q _ hq (two_zpow_pos _)

theorem flNormal_lb (q : ℚ) (hbr : (2:ℚ) ^ (findE q) ≤ q) :
    (2:ℚ) ^ (findE q) ≤ flNormal q := by
  rw [flNormal, pow2_eq]
  have key : ((2 ^ 52 : ℤ) : ℚ) * 2 ^ (findE q - (52 : ℤ)) = 2 ^ (findE q) :=
    zpow_as_grid 52 (findE q)
  calc (2:ℚ) ^ (findE q) = ((2 ^ 52 : ℤ) : ℚ) * 2 ^ (findE q - (52 : ℤ)) :=
    key.symm
  _ ≤ ((rne (q / 2 ^ (findE q - 52)) : ℤ) : ℚ) * 2 ^ (findE q - 52) :=
    grid_lb q _ _ (two_zpow_pos _) (by rw [key]; exact hbr)

theorem flNormal_ub (q : ℚ) (hbr : q < 2 ^ (findE q + 1)) :
    flNormal q ≤ 2 ^ (findE q + 1) := by
  rw [flNormal, pow2_eq]
  have key : ((2 ^ 53 : ℤ) : ℚ) * 2 ^ ((findE q + 1) - (53 : ℤ)) =
      2 ^ (findE q + 1) := zpow_as_grid 53 (findE q + 1)
  have key' : ((findE q + 1) - (53 : ℤ)) = findE q - 52 := by ring
  rw [key'] at key
  calc ((rne (q / 2 ^ (findE q - 52)) : ℤ) : ℚ) * 2 ^ (findE q - 52) ≤
      ((2 ^ 53 : ℤ) : ℚ) * 2 ^ (findE q - 52) :=
    grid_ub q _ _ (two_zpow_pos _) (by rw [key]; exact hbr)
  _ = 2 ^ (findE q + 1) := key

theorem flPos_nonneg (q : ℚ) (hq : 0 < q) : 0 ≤ flPos q := by
  rw [flPos]
  split
  · exact flSub_nonneg q hq.le
  · split
    · exact hq.le
    · exact flNormal_nonneg q hq.le

theorem flPos_mono {q r : ℚ} (hq : 0 < q) (hqr : q ≤ r) :
    flPos q ≤ flPos r := by
  have hr : 0 < r := lt_of_lt_of_le hq hqr
  rw [flPos, flPos]
  simp only [pow2_eq]
  by_cases hq1 : q < 2 ^ (-1022 : ℤ)
  · rw [if_pos hq1]
    by_cases hr1 : r < 2 ^ (-1022 : ℤ)
    · rw [if_pos hr1, flSub, flSub, pow2_eq]
      exact grid_mono _ (two_zpow_pos _) hqr
    · rw [if_neg hr1]
      have hsub := flSub_le q hq1
      by_cases hr2 : (2:ℚ) ^ (1024 : ℤ) ≤ r
      · rw [if_pos hr2]
        calc flSub q ≤ 2 ^ (-1022 : ℤ) := hsub
        _ ≤ 2 ^ (1024 : ℤ) := zpow_le_zpow_right₀ (by norm_num) (by omega)
        _ ≤ r := hr2
      · rw [if_neg hr2]
        have hbr := findE_bracket r (not_lt.mp hr1) (not_le.mp hr2)
        have he : (-1022 : ℤ) ≤ findE r := by
          have h1 : (2:ℚ) ^ (-1022 : ℤ) < 2 ^ (findE r + 1) :=
            lt_of_le_of_lt (not_lt.mp hr1) hbr.2
          have h2 := (zpow_lt_zpow_iff_right₀
            (by norm_num : (1:ℚ) < 2)).mp h1
          omega
        calc flSub q ≤ 2 ^ (-1022 : ℤ) := hsub
        _ ≤ 2 ^ (findE r) := zpow_le_zpow_right₀ (by norm_num) he
        _ ≤ flNormal r := flNormal_lb r hbr.1
  · rw [if_neg hq1]
    have hr1 : ¬ r < 2 ^ (-1022 : ℤ) := by
      push_neg at hq1 ⊢
      exact le_trans hq1 hqr
    rw [if_neg hr1]
    by_cases hq2 : (2:ℚ) ^ (1024 : ℤ) ≤ q
    · have hr2 : (2:ℚ) ^ (1024 : ℤ) ≤ r := le_trans hq2 hqr
      rw [if_pos hq2, if_pos hr2]
      exact hqr
    · rw [if_neg hq2]
      have hbrq := findE_bracket q (not_lt.mp hq1) (not_le.mp hq2)
      by_cases hr2 : (2:ℚ) ^ (1024 : ℤ) ≤ r
      · rw [if_pos hr2]
        have he : findE q + 1 ≤ 1024 := by
          have h1 : (2:ℚ) ^ (findE q) < 2 ^ (1024 : ℤ) :=
            lt_of_le_of_lt hbrq.1 (not_le.mp hq2)
          have h2 := (zpow_lt_zpow_iff_right₀
            (by norm_num : (1:ℚ) < 2)).mp h1
          omega
        calc flNormal q ≤ 2 ^ (findE q + 1) := flNormal_ub q hbrq.2
        _ ≤ 2 ^ (1024 : ℤ) := zpow_le_zpow_right₀ (by norm_num) he
        _ ≤ r := hr2
      · rw [if_neg hr2]
        have hbrr := findE_bracket r (not_lt.mp hr1) (not_le.mp hr2)
        by_cases he : findE q = findE r
        · rw [flNormal, flNormal, he, pow2_eq]
          exact grid_mono _ (two_zpow_pos _) hqr
        · have helt : findE q + 1 ≤ findE r := by
            have h1 : (2:ℚ) ^ (findE q) < 2 ^ (findE r + 1) :=
              lt_of_le_of_lt (le_trans hbrq.1 hqr) hbrr.2
            have h2 := (zpow_lt_zpow_iff_right₀
              (by norm_num : (1:ℚ) < 2)).mp h1
            omega
          calc flNormal q ≤ 2 ^ (findE q + 1) := flNormal_ub q hbrq.2
          _ ≤ 2 ^ (findE r) := zpow_le_zpow_right₀ (by norm_num) helt
          _ ≤ flNormal r := flNormal_lb r hbrr.1

theorem fl_nonneg {q : ℚ} (h : 0 ≤ q) : 0 ≤ fl q := by
  rcases eq_or_lt_of_le h with heq | hlt
  · rw [fl, if_pos heq.symm]
  · rw [fl, if_neg (ne_of_gt hlt), if_pos hlt]
    exact flPos_nonneg q hlt

theorem fl_mono {q r : ℚ} (hq : 0 ≤ q) (hqr : q ≤ r) : fl q ≤ fl r := by
  rcases eq_or_lt_of_le hq with heq | hlt
  · rw [fl, if_pos heq.symm]
    exact fl_nonneg (le_trans hq hqr)
  · have hr : 0 < r := lt_of_lt_of_le hlt hqr
    rw [fl, fl, if_neg (ne_of_gt hlt), if_pos hlt, if_neg (ne_of_gt hr),
      if_pos hr]
    exact flPos_mono hlt hqr

theorem fl_one : fl 1 = 1 := by decide

theorem fl_thirty : fl 30 = 30 := by decide

theorem fl_forty : fl 40 = 40 := by decide

theorem fl_seventy : fl 70 = 70 := by decide

theorem fl_hundred : fl 100 = 100 := by decide

/-- `calculate_variety_score`, with Python's float arithmetic modelled
exactly: every `/`, `*` and `+` on floats (including the `int / int` true
divisions) is the correctly rounded binary64 operation, so each one is
`fl` of the exact result; `min(30, x)` and the comparisons are exact; the
final `int(...)` truncates. -/
def calculate_variety_score (unique_count total_count : Nat)
    (cuisine_counts region_counts : List (String × Nat)) : Int :=
  if total_count = 0 then 100
  else
    let uniqueness : ℚ := fl (fl ((unique_count : ℚ) / (total_count : ℚ)) * 40)
    let cuisine_count : Nat := cuisine_counts.length
    let max_cuisines : Nat := 11
    let cuisine_score : ℚ :=
      min 30 (fl (fl ((cuisine_count : ℚ) / (max_cuisines : ℚ)) * 30))
    let eastern : Nat := ucGet region_counts "eastern"
    let western : Nat := ucGet region_counts "western"
    let total : Nat := eastern + western
    let balance_score : ℚ :=
      if total = 0 then 30
      else
        fl ((if 0 < max eastern western then
              fl ((min eastern western : ℚ) / ((max eastern western : ℚ)))
             else 1) * 30)
    pyInt (fl (fl (uniqueness + cuisine_score) + balance_score))

/-- The single pass of `assess_variety` over `all_dish_uids` building the
cuisine, region and category tallies, skipping unresolvable uids
(`continue`). -/
def distTriple (dishes : List Dish) (uids : List String) :
    List (String × Nat) × List (String × Nat) × List (String × Nat) :=
  uids.foldl
    (fun acc uid =>
      match dishByUid dishes uid with
      | none => acc
      | some d =>
        ( ucInc acc.1 (cuisineStr d.cuisine)
        , ucInc acc.2.1 (regionStr d.region)
        , d.categories.foldl (fun m cat => ucInc m (categoryStr cat)) acc.2.2))
    ([], [], [])

/-- `assess_variety`. -/
def assess_variety (plan : MealPlan) (dishes : List Dish) : VarietyReport :=
  let all_dish_uids := plan.all_dish_uids
  let total_count := all_dish_uids.length
  let dish_counts := buildCounter all_dish_uids
  let unique_count := dish_counts.length
  let repeated := dish_counts.filter (fun p => 2 < p.2)
  let t := distTriple dishes all_dish_uids
  { cuisine_distribution := t.1
    region_distribution := t.2.1
    category_distribution := t.2.2
    repeated_dishes := repeated
    unique_dish_count := unique_count
    total_dish_count := total_count
    variety_score := calculate_variety_score unique_count total_count t.1 t.2.1 }

/-- The repeated-dish suggestion string of `suggest_improvements`
(`f"'{dish.name}' appears {count} times. Consider reducing to 1-2 times."`). -/
def repeatedMsg (dishName : String) (count : Nat) : String :=
  "\x27" ++ dishName ++ "\x27 appears " ++ toString count ++
    " times. Consider reducing to 1-2 times."

/-- The region-imbalance suggestion string. -/
def imbalanceMsg (dominant : String) (mx mn : Nat) : String :=
  dominant ++ " dishes are dominant (" ++ toString mx ++ " vs " ++
    toString mn ++ "). Consider balancing regions."

/-- The low-cuisine-variety suggestion string. -/
def fewCuisinesMsg (n : Nat) : String :=
  "Only " ++ toString n ++ " cuisine(s) used. Consider adding more variety."

/-- `suggest_improvements`: sequential appends to one list, modelled as the
concatenation of the four rule blocks in source order. -/
def suggest_improvements (report : VarietyReport) (dishes : List Dish) :
    List String :=
  let s1 : List String :=
    report.repeated_dishes.foldl
      (fun acc p =>
        match dishByUid dishes p.1 with
        | some d => acc ++ [repeatedMsg d.name p.2]
        | none => acc)
      []
  let eastern := ucGet report.region_distribution "eastern"
  let western := ucGet report.region_distribution "western"
  let s2 : List String :=
    if 0 < eastern ∧ 0 < western then
      if (2 : ℚ) < fl ((max eastern western : ℚ) / ((min eastern western : ℚ)))
      then
        [imbalanceMsg (if western < eastern then "Eastern" else "Western")
          (max eastern western) (min eastern western)]
      else []
    else []
  let s3 : List String :=
    if report.cuisine_distribution.length < 3 then
      [fewCuisinesMsg report.cuisine_distribution.length]
    else []
  let s4 : List String :=
    if report.variety_score < 50 then
      ["Variety score is low. Try adding more unique dishes."]
    else if report.variety_score < 70 then
      ["Good variety, but room for improvement."]
    else []
  s1 ++ s2 ++ s3 ++ s4

/-! ## Spec-side reference definitions (for the refinement claims) -/

/-- The dishes of the plan that resolve against the catalogue, in
placement order. -/
def resolvedDishes (dishes : List Dish) (uids : List String) : List Dish :=
  uids.filterMap (dishByUid dishes)

/-- Modelled from the spec: the variety-score formula as the specification
words it — floor of the sum of a uniqueness component
`(unique/total) × 40` (0/0 treated as overall score 100), a cuisine
component `min(30, (distinct_cuisines_used/11) × 30)` and a region-balance
component `(min(e,w)/max(e,w)) × 30` (30 when the total region count is
zero). -/
def spec_variety_score (unique_count total_count distinct_cuisines : Nat)
    (eastern western : Nat) : Int :=
  if total_count = 0 then 100
  else
    ⌊((unique_count : ℚ) / (total_count : ℚ)) * 40 +
      min 30 (((distinct_cuisines : ℚ) / 11) * 30) +
      (if eastern + western = 0 then (30 : ℚ)
       else ((min eastern western : ℚ) / ((max eastern western : ℚ))) * 30)⌋

/-! ## Concrete demonstration inputs used by witnesses and counterexamples -/

/-- A single Eastern dish. -/
def kimchiDemo : Dish :=
  ⟨"K1", "Kimchi", [Category.fermented], Cuisine.korean, [], ""⟩

/-- A plan placing the same identifier five times. -/
def plan5Demo : MealPlan := ⟨"P1", "Test", [⟨["K1", "K1", "K1", "K1", "K1"]⟩]⟩

/-- A plan placing an identifier that resolves to no catalogue dish, five
times. -/
def ghostPlanDemo : MealPlan :=
  ⟨"P2", "Ghost", [⟨["ghost", "ghost", "ghost", "ghost", "ghost"]⟩]⟩

/-- A report whose repeated-dish map names an identifier absent from the
catalogue. -/
def ghostReportDemo : VarietyReport := ⟨[], [], [], [("ghost", 3)], 1, 3, 100⟩

/-! ## Claim theorems -/

/-- C10: `Shortlist.add` is idempotent (adding a present identifier
returns an equal shortlist, and re-adding is absorbed), `remove` of an
absent identifier is a no-op, and `clear` returns the empty shortlist.
All operations are total Lean functions returning new values; the receiver
is never mutated (immutability is inherent to the functional embedding). -/
theorem shortlist_ops_spec (s : Shortlist) (u : String) :
    ((s.add u).add u = s.add u) ∧
    (u ∈ s.dish_uids → s.add u = s) ∧
    (u ∉ s.dish_uids → s.remove u = s) ∧
    s.clear = ⟨[]⟩ := by
  obtain ⟨l⟩ := s
  refine ⟨?_, ?_, ?_, rfl⟩
  · by_cases h : u ∈ l
    · simp [Shortlist.add, h]
    · simp [Shortlist.add, h]
  · intro h
    simp [Shortlist.add, h]
  · intro h
    simp only [Shortlist.remove, Shortlist.mk.injEq]
    exact List.filter_eq_self.mpr (fun a ha => by
      simp only [ne_eq, decide_eq_true_eq]
      exact fun hh => h (hh ▸ ha))

/-- Witness for C10 at a concrete shortlist. -/
theorem shortlist_ops_spec_witness :
    (Shortlist.mk ["a"]).add "a" = Shortlist.mk ["a"] ∧
    (Shortlist.mk ["a"]).remove "b" = Shortlist.mk ["a"] :=
  ⟨(shortlist_ops_spec ⟨["a"]⟩ "a").2.1 (by decide),
   (shortlist_ops_spec ⟨["a"]⟩ "b").2.2.1 (by decide)⟩

/-- C6: `MealPlan.with_week` succeeds iff the 1-indexed week number lies in
`[1, len(weeks)]`; outside that range it fails with the distinct error kind
`PlanError.valueError` (modelling Python's `ValueError`, not a generic
exception).  On success the returned plan differs from the original only at
the addressed week; the original value is unchanged (immutability is
inherent to the functional embedding). -/
theorem with_week_spec (p : MealPlan) (n : Int) (w : WeekPlan) :
    ((∃ q, p.with_week n w = .ok q) ↔
      (1 ≤ n ∧ n ≤ (p.weeks.length : Int))) ∧
    (¬(1 ≤ n ∧ n ≤ (p.weeks.length : Int)) →
      ∃ msg, p.with_week n w = .error (.valueError msg)) ∧
    (∀ q, p.with_week n w = .ok q →
      q.uid = p.uid ∧ q.name = p.name ∧
      q.weeks.length = p.weeks.length ∧
      q.weeks[(n - 1).toNat]? = some w ∧
      (∀ i : Nat, i ≠ (n - 1).toNat → q.weeks[i]? = p.weeks[i]?)) := by
  unfold MealPlan.with_week
  by_cases h : 1 ≤ n ∧ n ≤ (p.weeks.length : Int)
  · rw [if_pos h]
    refine ⟨⟨fun _ => h, fun _ => ⟨_, rfl⟩⟩, fun hc => absurd h hc, ?_⟩
    intro q hq
    have hq' : { p with weeks := p.weeks.set (n - 1).toNat w } = q :=
      Except.ok.inj hq
    subst hq'
    have hlt : (n - 1).toNat < p.weeks.length := by omega
    refine ⟨rfl, rfl, by simp, ?_, ?_⟩
    · simpa [hlt] using List.getElem?_set_self (a := w) hlt
    · intro i hi
      simpa using List.getElem?_set_ne (fun hh => hi hh.symm)
  · rw [if_neg h]
    refine ⟨⟨?_, fun hc => absurd hc h⟩, fun _ => ⟨_, rfl⟩, ?_⟩
    · rintro ⟨q, hq⟩
      exact absurd hq (by simp)
    · intro q hq
      exact absurd hq (by simp)

/-- Witness for C6: a two-week plan rejects week 5 and accepts week 2,
updating only that week. -/
theorem with_week_spec_witness :
    (∃ msg, (MealPlan.mk "P" "x" [⟨["a"]⟩, ⟨["b"]⟩]).with_week 5 ⟨["c"]⟩ =
      .error (.valueError msg)) ∧
    ((MealPlan.mk "P" "x" [⟨["a"]⟩, ⟨["c"]⟩]).uid = "P" ∧
     (MealPlan.mk "P" "x" [⟨["a"]⟩, ⟨["c"]⟩]).name = "x" ∧
     (MealPlan.mk "P" "x" [⟨["a"]⟩, ⟨["c"]⟩]).weeks.length =
       (MealPlan.mk "P" "x" [⟨["a"]⟩, ⟨["b"]⟩]).weeks.length ∧
     (MealPlan.mk "P" "x" [⟨["a"]⟩, ⟨["c"]⟩]).weeks[((2 : Int) - 1).toNat]? =
       some ⟨["c"]⟩ ∧
     (∀ i : Nat, i ≠ ((2 : Int) - 1).toNat →
       (MealPlan.mk "P" "x" [⟨["a"]⟩, ⟨["c"]⟩]).weeks[i]? =
         (MealPlan.mk "P" "x" [⟨["a"]⟩, ⟨["b"]⟩]).weeks[i]?)) :=
  ⟨(with_week_spec (MealPlan.mk "P" "x" [⟨["a"]⟩, ⟨["b"]⟩]) 5 ⟨["c"]⟩).2.1
      (by decide),
   (with_week_spec (MealPlan.mk "P" "x" [⟨["a"]⟩, ⟨["b"]⟩]) 2 ⟨["c"]⟩).2.2
      (MealPlan.mk "P" "x" [⟨["a"]⟩, ⟨["c"]⟩]) (by rfl)⟩

/-- C1 counterexample: with a single Eastern dish and the default
parameters restricted to one week, the Eastern quota loop falls back to
the full Eastern pool and places the same dish twice in the same week
(`weeks = [["K1", "K1"]]`), so "a dish never appears twice within the same
week" is false as stated. -/
theorem intra_week_duplicate_cex :
    (distribute_dishes [⟨"K1", "Kimchi", [Category.fermented],
      Cuisine.korean, [], ""⟩] 1 4 2 2).weeks = [["K1", "K1"]] ∧
    ¬(∀ week ∈ (distribute_dishes [⟨"K1", "Kimchi", [Category.fermented],
      Cuisine.korean, [], ""⟩] 1 4 2 2).weeks, week.Nodup) := by
  constructor
  · decide
  · decide

/-- C1 amended: only the remainder-filling stage excludes dishes already
placed in the current week, so it preserves intra-week distinctness: if the
running week has no duplicate identifiers, it still has none after the fill
stage.  (The regional-quota stages may duplicate within a week when they
fall back to the already-used regional pool, as the counterexample
shows.) -/
theorem fill_stage_no_intra_week_duplicates (all_dishes_list : List Dish)
    (per_week : Int) (recently_used : List String) (fuel : Nat)
    (s : FillState) (h : s.ws.dishUids.Nodup) :
    (fillLoop all_dishes_list per_week recently_used fuel s).ws.dishUids.Nodup :=
  fillLoop_nodup all_dishes_list per_week recently_used fuel s h

/-- Witness for the amended C1: the fill stage adds the unused dish and
keeps the week duplicate-free. -/
theorem fill_stage_no_intra_week_duplicates_witness :
    (["a"] : List String).Nodup ∧
    (fillLoop [kimchiDemo] 2 [] 2
      ⟨⟨[], [], ["a"]⟩, [("a", 1)], [kimchiDemo]⟩).ws.dishUids.Nodup :=
  ⟨by decide,
   fill_stage_no_intra_week_duplicates [kimchiDemo] 2 [] 2
     ⟨⟨[], [], ["a"]⟩, [("a", 1)], [kimchiDemo]⟩ (by decide)⟩

/-- C4 counterexample: `weeks` is a caller-supplied Python `int`; for the
negative value `-1` the loop `for week_idx in range(weeks)` runs zero
times, so the result has 0 weeks, not `-1`: `len(result.weeks) == weeks`
fails. -/
theorem weeks_conservation_cex :
    (distribute_dishes [] (-1) 4 2 2).weeks.length = 0 ∧
    ¬(((distribute_dishes [] (-1) 4 2 2).weeks.length : Int) = -1) := by
  constructor
  · decide
  · decide

/-- C4 amended: for every dish list and parameters, the result always
contains exactly `max(weeks, 0)` week tuples — in particular exactly
`weeks` of them whenever `weeks ≥ 0`, regardless of input size (including
zero dishes). -/
theorem weeks_conservation (dishes : List Dish)
    (weeks per_week eastern_per_week western_per_week : Int) :
    (distribute_dishes dishes weeks per_week eastern_per_week
      western_per_week).weeks.length = weeks.toNat ∧
    (0 ≤ weeks →
      ((distribute_dishes dishes weeks per_week eastern_per_week
        western_per_week).weeks.length : Int) = weeks) := by
  have hlen : (distribute_dishes dishes weeks per_week eastern_per_week
      western_per_week).weeks.length = weeks.toNat := by
    simp only [distribute_dishes]
    rw [distLoop_weekResults_length]
    simp
  exact ⟨hlen, fun h0 => by rw [hlen]; omega⟩

/-- Witness for C4 (amended): four weeks requested, four produced even from
an empty dish list. -/
theorem weeks_conservation_witness :
    (distribute_dishes [] 4 4 2 2).weeks.length = (4 : Int).toNat ∧
    ((distribute_dishes [] 4 4 2 2).weeks.length : Int) = 4 :=
  ⟨(weeks_conservation [] 4 4 2 2).1,
   (weeks_conservation [] 4 4 2 2).2 (by decide)⟩

/-- C5: an identifier appears in `reused` iff its total placement count
across all weeks of the result is at least 2. -/
theorem reused_iff_placed_twice (dishes : List Dish)
    (weeks per_week eastern_per_week western_per_week : Int) (uid : String) :
    uid ∈ (distribute_dishes dishes weeks per_week eastern_per_week
        western_per_week).reused ↔
      2 ≤ ((distribute_dishes dishes weeks per_week eastern_per_week
        western_per_week).weeks.map (fun week => week.count uid)).sum := by
  simp only [distribute_dishes]
  set final := distLoop dishes
    (dishes.filter (fun d => d.region == Region.eastern))
    (dishes.filter (fun d => !(d.region == Region.eastern)))
    per_week eastern_per_week.toNat western_per_week.toNat weeks.toNat
    ⟨[], [], []⟩ with hfinal
  have hC : CounterFor final.uc final.weekResults.flatten := by
    rw [hfinal]
    apply distLoop_counter
    simpa using counterFor_nil
  have hsum : (final.weekResults.map (fun week => week.count uid)).sum =
      final.weekResults.flatten.count uid :=
    (List.count_flatten uid final.weekResults).symm
  rw [hsum]
  constructor
  · intro hm
    obtain ⟨x, hx, hxid⟩ := List.mem_map.mp hm
    obtain ⟨hxuc, hxgt⟩ := List.mem_filter.mp hx
    have hgt : 1 < x.2 := by simpa using hxgt
    have hx' : (uid, x.2) ∈ final.uc := by
      have hxeq : x = (uid, x.2) := by
        obtain ⟨x1, x2⟩ := x
        simp only at hxid
        rw [hxid]
      exact hxeq ▸ hxuc
    have hcount := ((counter_entry_iff hC uid x.2).mp hx').2
    omega
  · intro h2
    have hpos : 0 < final.weekResults.flatten.count uid := by omega
    have hmemflat : uid ∈ final.weekResults.flatten :=
      List.count_pos_iff.mp hpos
    have hx : (uid, final.weekResults.flatten.count uid) ∈ final.uc :=
      (counter_entry_iff hC uid _).mpr ⟨hmemflat, rfl⟩
    apply List.mem_map.mpr
    refine ⟨(uid, final.weekResults.flatten.count uid),
      List.mem_filter.mpr ⟨hx, ?_⟩, rfl⟩
    simpa using (by omega : 1 < final.weekResults.flatten.count uid)

/-! ## Analysis: projection equations and helper lemmas -/

theorem assess_repeated_eq (plan : MealPlan) (dishes : List Dish) :
    (assess_variety plan dishes).repeated_dishes =
      (buildCounter plan.all_dish_uids).filter (fun p => 2 < p.2) := rfl

theorem assess_total_eq (plan : MealPlan) (dishes : List Dish) :
    (assess_variety plan dishes).total_dish_count =
      plan.all_dish_uids.length := rfl

theorem assess_unique_eq (plan : MealPlan) (dishes : List Dish) :
    (assess_variety plan dishes).unique_dish_count =
      (buildCounter plan.all_dish_uids).length := rfl

theorem assess_cuisine_eq (plan : MealPlan) (dishes : List Dish) :
    (assess_variety plan dishes).cuisine_distribution =
      (distTriple dishes plan.all_dish_uids).1 := rfl

theorem assess_region_eq (plan : MealPlan) (dishes : List Dish) :
    (assess_variety plan dishes).region_distribution =
      (distTriple dishes plan.all_dish_uids).2.1 := rfl

theorem assess_category_eq (plan : MealPlan) (dishes : List Dish) :
    (assess_variety plan dishes).category_distribution =
      (distTriple dishes plan.all_dish_uids).2.2 := rfl

theorem assess_score_eq (plan : MealPlan) (dishes : List Dish) :
    (assess_variety plan dishes).variety_score =
      calculate_variety_score (buildCounter plan.all_dish_uids).length
        plan.all_dish_uids.length
        (distTriple dishes plan.all_dish_uids).1
        (distTriple dishes plan.all_dish_uids).2.1 := rfl

/-- The number of counter entries is the number of distinct elements. -/
theorem counter_length {uc : List (String × Nat)} {placed : List String}
    (h : CounterFor uc placed) : uc.length = placed.dedup.length := by
  obtain ⟨-, hnd, hmem⟩ := h
  have h1 : uc.length = (ucKeys uc).length := by simp [ucKeys]
  have h2 : (ucKeys uc).toFinset = placed.dedup.toFinset := by
    ext a
    simp only [List.mem_toFinset, List.mem_dedup]
    exact hmem a
  have h3 : (ucKeys uc).toFinset.card = (ucKeys uc).length :=
    List.toFinset_card_of_nodup hnd
  have h4 : placed.dedup.toFinset.card = placed.dedup.length :=
    List.toFinset_card_of_nodup (List.nodup_dedup placed)
  rw [h1, ← h3, h2, h4]

/-- When no identifier resolves, all three tallies stay empty. -/
theorem distTriple_all_none (dishes : List Dish) :
    ∀ (uids : List String), (∀ u ∈ uids, dishByUid dishes u = none) →
      distTriple dishes uids = ([], [], []) := by
  intro uids
  induction uids with
  | nil => intro h; rfl
  | cons u rest ih =>
    intro h
    have hu : dishByUid dishes u = none := h u (List.mem_cons_self u rest)
    have hrest := ih (fun v hv => h v (List.mem_cons.mpr (Or.inr hv)))
    simpa [distTriple, List.foldl_cons, hu] using hrest

/-- C7: an identifier maps to `n` in `repeated_dishes` iff it occurs
exactly `n` times across the whole plan and `n` exceeds 2; in particular an
identifier occurring exactly twice never appears, one occurring three
times appears with count 3. -/
theorem repeated_dishes_iff (plan : MealPlan) (dishes : List Dish)
    (uid : String) (n : Nat) :
    ((uid, n) ∈ (assess_variety plan dishes).repeated_dishes ↔
      (2 < n ∧ plan.all_dish_uids.count uid = n)) := by
  have hC := counterFor_buildCounter plan.all_dish_uids
  rw [assess_repeated_eq]
  constructor
  · intro hm
    obtain ⟨hmem, hgtb⟩ := List.mem_filter.mp hm
    have hgt : 2 < n := by simpa using hgtb
    exact ⟨hgt, ((counter_entry_iff hC uid n).mp hmem).2⟩
  · rintro ⟨hgt, hcount⟩
    apply List.mem_filter.mpr
    refine ⟨(counter_entry_iff hC uid n).mpr ⟨?_, hcount⟩, by simpa using hgt⟩
    have hpos : 0 < plan.all_dish_uids.count uid := by omega
    exact List.count_pos_iff.mp hpos

/-- C9: `total_dish_count`, `unique_dish_count` and `repeated_dishes` are
computed over every identifier occurring in the plan — including
identifiers resolving to no catalogue dish — while the cuisine, region and
category distributions skip unresolvable identifiers (so they are all
empty when nothing resolves). -/
theorem counts_include_unresolvable (plan : MealPlan) (dishes : List Dish) :
    (assess_variety plan dishes).total_dish_count =
      plan.all_dish_uids.length ∧
    (assess_variety plan dishes).unique_dish_count =
      plan.all_dish_uids.dedup.length ∧
    (∀ uid n, ((uid, n) ∈ (assess_variety plan dishes).repeated_dishes ↔
      (2 < n ∧ plan.all_dish_uids.count uid = n))) ∧
    ((∀ uid ∈ plan.all_dish_uids, dishByUid dishes uid = none) →
      (assess_variety plan dishes).cuisine_distribution = [] ∧
      (assess_variety plan dishes).region_distribution = [] ∧
      (assess_variety plan dishes).category_distribution = []) := by
  refine ⟨assess_total_eq plan dishes, ?_, ?_, ?_⟩
  · rw [assess_unique_eq]
    exact counter_length (counterFor_buildCounter plan.all_dish_uids)
  · intro uid n
    have hC := counterFor_buildCounter plan.all_dish_uids
    rw [assess_repeated_eq]
    constructor
    · intro hm
      obtain ⟨hmem, hgtb⟩ := List.mem_filter.mp hm
      have hgt : 2 < n := by simpa using hgtb
      exact ⟨hgt, ((counter_entry_iff hC uid n).mp hmem).2⟩
    · rintro ⟨hgt, hcount⟩
      apply List.mem_filter.mpr
      refine ⟨(counter_entry_iff hC uid n).mpr ⟨?_, hcount⟩,
        by simpa using hgt⟩
      have hpos : 0 < plan.all_dish_uids.count uid := by omega
      exact List.count_pos_iff.mp hpos
  · intro hnone
    have ht := distTriple_all_none dishes plan.all_dish_uids hnone
    rw [assess_cuisine_eq, assess_region_eq, assess_category_eq, ht]
    exact ⟨rfl, rfl, rfl⟩

/-- Witness for C9: five placements of an unresolvable identifier yield
total 5, unique 1, `repeated_dishes = {"ghost": 5}` and empty
distributions. -/
theorem counts_include_unresolvable_witness :
    (assess_variety ghostPlanDemo [kimchiDemo]).cuisine_distribution = [] ∧
    (assess_variety ghostPlanDemo [kimchiDemo]).region_distribution = [] ∧
    (assess_variety ghostPlanDemo [kimchiDemo]).category_distribution = [] ∧
    (assess_variety ghostPlanDemo [kimchiDemo]).total_dish_count = 5 ∧
    (assess_variety ghostPlanDemo [kimchiDemo]).unique_dish_count = 1 ∧
    (assess_variety ghostPlanDemo [kimchiDemo]).repeated_dishes =
      [("ghost", 5)] := by
  have h := (counts_include_unresolvable ghostPlanDemo [kimchiDemo]).2.2.2
    (by decide)
  exact ⟨h.1, h.2.1, h.2.2, by decide, by decide, by decide⟩

/-- Truncation agrees with floor on nonnegative values and keeps `[0, 100]`
bounds. -/
theorem pyInt_bounds (q : ℚ) (h0 : 0 ≤ q) (h100 : q ≤ 100) :
    0 ≤ pyInt q ∧ pyInt q ≤ 100 := by
  rw [pyInt, if_pos h0]
  constructor
  · exact Int.le_floor.mpr (by exact_mod_cast h0)
  · have hf : ⌊q⌋ ≤ ⌊(100 : ℚ)⌋ := Int.floor_le_floor h100
    have h100' : ⌊(100 : ℚ)⌋ = 100 := by norm_num
    omega

/-- On nonnegative values `pyInt` is the floor. -/
theorem pyInt_eq_floor (q : ℚ) (h0 : 0 ≤ q) : pyInt q = ⌊q⌋ := by
  rw [pyInt, if_pos h0]

/-- The uniqueness component is a nonnegative float. -/
theorem uniq_comp_nonneg (a b : ℚ) (ha : 0 ≤ a) (hb : 0 ≤ b) :
    0 ≤ fl (fl (a / b) * 40) :=
  fl_nonneg (mul_nonneg (fl_nonneg (div_nonneg ha hb)) (by norm_num))

/-- The uniqueness component is at most 40 when `a ≤ b`. -/
theorem uniq_comp_le (a b : ℚ) (ha : 0 ≤ a) (hb : 0 < b) (hab : a ≤ b) :
    fl (fl (a / b) * 40) ≤ 40 := by
  have hd0 : (0 : ℚ) ≤ a / b := div_nonneg ha hb.le
  have hd1 : a / b ≤ 1 := by
    rw [div_le_one hb]
    exact hab
  have h1 : fl (a / b) ≤ 1 := by
    calc fl (a / b) ≤ fl 1 := fl_mono hd0 hd1
    _ = 1 := fl_one
  have h2 : fl (a / b) * 40 ≤ 40 := by nlinarith [fl_nonneg hd0]
  calc fl (fl (a / b) * 40) ≤ fl 40 :=
    fl_mono (mul_nonneg (fl_nonneg hd0) (by norm_num)) h2
  _ = 40 := fl_forty

/-- A float of a ratio `min/max` times 30 stays in `[0, 30]`. -/
theorem ratio_comp_mem (x y : ℚ) (hx : 0 ≤ x) (hy : 0 < y) (hxy : x ≤ y) :
    0 ≤ fl (fl (x / y) * 30) ∧ fl (fl (x / y) * 30) ≤ 30 := by
  have hd0 : (0 : ℚ) ≤ x / y := div_nonneg hx hy.le
  have hd1 : x / y ≤ 1 := by
    rw [div_le_one hy]
    exact hxy
  have h1 : fl (x / y) ≤ 1 := by
    calc fl (x / y) ≤ fl 1 := fl_mono hd0 hd1
    _ = 1 := fl_one
  refine ⟨fl_nonneg (mul_nonneg (fl_nonneg hd0) (by norm_num)), ?_⟩
  have h2 : fl (x / y) * 30 ≤ 30 := by nlinarith [fl_nonneg hd0]
  calc fl (fl (x / y) * 30) ≤ fl 30 :=
    fl_mono (mul_nonneg (fl_nonneg hd0) (by norm_num)) h2
  _ = 30 := fl_thirty

/-- `calculate_variety_score` stays within `[0, 100]` whenever the unique
count does not exceed the total count. -/
theorem calculate_variety_score_bounds (u t : Nat)
    (cc rc : List (String × Nat)) (hut : u ≤ t) :
    0 ≤ calculate_variety_score u t cc rc ∧
      calculate_variety_score u t cc rc ≤ 100 := by
  by_cases ht : t = 0
  · simp [calculate_variety_score, ht]
  · rw [calculate_variety_score, if_neg ht]
    have htpos : (0 : ℚ) < (t : ℚ) := by
      exact_mod_cast Nat.pos_of_ne_zero ht
    have hA0 : (0 : ℚ) ≤ fl (fl ((u : ℚ) / (t : ℚ)) * 40) :=
      uniq_comp_nonneg _ _ (by positivity) (by positivity)
    have hA1 : fl (fl ((u : ℚ) / (t : ℚ)) * 40) ≤ 40 :=
      uniq_comp_le _ _ (by positivity) htpos (by exact_mod_cast hut)
    have hB0 : (0 : ℚ) ≤
        min 30 (fl (fl ((cc.length : ℚ) / ((11 : Nat) : ℚ)) * 30)) :=
      le_min (by norm_num)
        (fl_nonneg (mul_nonneg (fl_nonneg (by positivity)) (by norm_num)))
    have hB1 : min (30:ℚ) (fl (fl ((cc.length : ℚ) / ((11 : Nat) : ℚ)) * 30))
        ≤ 30 := min_le_left _ _
    have hC0 : (0 : ℚ) ≤
        (if ucGet rc "eastern" + ucGet rc "western" = 0 then (30 : ℚ)
         else
          fl ((if 0 < max (ucGet rc "eastern") (ucGet rc "western") then
                fl ((min (ucGet rc "eastern") (ucGet rc "western") : ℚ) /
                  ((max (ucGet rc "eastern") (ucGet rc "western") : ℚ)))
               else 1) * 30)) := by
      split
      · norm_num
      · apply fl_nonneg
        apply mul_nonneg _ (by norm_num)
        split
        · exact fl_nonneg (by positivity)
        · norm_num
    have hC1 :
        (if ucGet rc "eastern" + ucGet rc "western" = 0 then (30 : ℚ)
         else
          fl ((if 0 < max (ucGet rc "eastern") (ucGet rc "western") then
                fl ((min (ucGet rc "eastern") (ucGet rc "western") : ℚ) /
                  ((max (ucGet rc "eastern") (ucGet rc "western") : ℚ)))
               else 1) * 30)) ≤ 30 := by
      split
      · norm_num
      · have hr1 :
            (if 0 < max (ucGet rc "eastern") (ucGet rc "western") then
              fl ((min (ucGet rc "eastern") (ucGet rc "western") : ℚ) /
                ((max (ucGet rc "eastern") (ucGet rc "western") : ℚ)))
             else 1) ≤ 1 := by
          split
          · rename_i hmx
            have hmaxpos : (0 : ℚ) <
                max ((ucGet rc "eastern" : ℚ)) ((ucGet rc "western" : ℚ)) := by
              have h := (by exact_mod_cast hmx : (0 : ℚ) <
                ((max (ucGet rc "eastern") (ucGet rc "western") : Nat) : ℚ))
              simpa [Nat.cast_max] using h
            have hd1 :
                min ((ucGet rc "eastern" : ℚ)) ((ucGet rc "western" : ℚ)) /
                  max ((ucGet rc "eastern" : ℚ)) ((ucGet rc "western" : ℚ)) ≤
                  1 := by
              rw [div_le_one hmaxpos]
              exact min_le_max
            calc fl (min ((ucGet rc "eastern" : ℚ))
                ((ucGet rc "western" : ℚ)) /
                  max ((ucGet rc "eastern" : ℚ)) ((ucGet rc "western" : ℚ))) ≤
                fl 1 := fl_mono (by positivity) hd1
            _ = 1 := fl_one
          · exact le_rfl
        have hr0 :
            (0:ℚ) ≤
            (if 0 < max (ucGet rc "eastern") (ucGet rc "western") then
              fl ((min (ucGet rc "eastern") (ucGet rc "western") : ℚ) /
                ((max (ucGet rc "eastern") (ucGet rc "western") : ℚ)))
             else 1) := by
          split
          · exact fl_nonneg (by positivity)
          · norm_num
        have h2 :
            (if 0 < max (ucGet rc "eastern") (ucGet rc "western") then
              fl ((min (ucGet rc "eastern") (ucGet rc "western") : ℚ) /
                ((max (ucGet rc "eastern") (ucGet rc "western") : ℚ)))
             else 1) * 30 ≤ 30 := by nlinarith
        calc fl ((if 0 < max (ucGet rc "eastern") (ucGet rc "western") then
              fl ((min (ucGet rc "eastern") (ucGet rc "western") : ℚ) /
                ((max (ucGet rc "eastern") (ucGet rc "western") : ℚ)))
             else 1) * 30) ≤ fl 30 :=
          fl_mono (mul_nonneg hr0 (by norm_num)) h2
        _ = 30 := fl_thirty
    apply pyInt_bounds
    · exact fl_nonneg (add_nonneg (fl_nonneg (add_nonneg hA0 hB0)) hC0)
    · have hAB0 : (0:ℚ) ≤ fl (fl ((u : ℚ) / (t : ℚ)) * 40) +
          min 30 (fl (fl ((cc.length : ℚ) / ((11 : Nat) : ℚ)) * 30)) :=
        add_nonneg hA0 hB0
      have hAB : fl (fl (fl ((u : ℚ) / (t : ℚ)) * 40) +
          min 30 (fl (fl ((cc.length : ℚ) / ((11 : Nat) : ℚ)) * 30))) ≤ 70 := by
        calc fl (fl (fl ((u : ℚ) / (t : ℚ)) * 40) +
            min 30 (fl (fl ((cc.length : ℚ) / ((11 : Nat) : ℚ)) * 30))) ≤
            fl 70 := fl_mono hAB0 (by linarith)
        _ = 70 := fl_seventy
      calc fl (fl (fl (fl ((u : ℚ) / (t : ℚ)) * 40) +
          min 30 (fl (fl ((cc.length : ℚ) / ((11 : Nat) : ℚ)) * 30))) +
          (if ucGet rc "eastern" + ucGet rc "western" = 0 then (30 : ℚ)
           else
            fl ((if 0 < max (ucGet rc "eastern") (ucGet rc "western") then
                  fl ((min (ucGet rc "eastern") (ucGet rc "western") : ℚ) /
                    ((max (ucGet rc "eastern") (ucGet rc "western") : ℚ)))
                 else 1) * 30))) ≤ fl 100 :=
        fl_mono (add_nonneg (fl_nonneg hAB0) hC0) (by linarith)
      _ = 100 := fl_hundred

/-- C3: the variety score of any plan against any catalogue — including
plans referencing identifiers absent from the catalogue — lies in
`[0, 100]`, and a plan containing no dish identifiers scores exactly
100. -/
theorem variety_score_bounds (plan : MealPlan) (dishes : List Dish) :
    (0 ≤ (assess_variety plan dishes).variety_score ∧
      (assess_variety plan dishes).variety_score ≤ 100) ∧
    (plan.all_dish_uids = [] →
      (assess_variety plan dishes).variety_score = 100) := by
  constructor
  · rw [assess_score_eq]
    apply calculate_variety_score_bounds
    have h1 := counter_length (counterFor_buildCounter plan.all_dish_uids)
    rw [h1]
    exact List.Sublist.length_le (List.dedup_sublist _)
  · intro h
    rw [assess_score_eq, h]
    simp [calculate_variety_score, buildCounter]

/-- Witness for C3: a plan with two empty weeks has no identifiers and
scores exactly 100 (within bounds). -/
theorem variety_score_bounds_witness :
    (0 ≤ (assess_variety ⟨"P3", "Empty", [⟨[]⟩, ⟨[]⟩]⟩ [kimchiDemo]).variety_score ∧
      (assess_variety ⟨"P3", "Empty", [⟨[]⟩, ⟨[]⟩]⟩ [kimchiDemo]).variety_score ≤ 100) ∧
    (assess_variety ⟨"P3", "Empty", [⟨[]⟩, ⟨[]⟩]⟩ [kimchiDemo]).variety_score = 100 :=
  ⟨(variety_score_bounds ⟨"P3", "Empty", [⟨[]⟩, ⟨[]⟩]⟩ [kimchiDemo]).1,
   (variety_score_bounds ⟨"P3", "Empty", [⟨[]⟩, ⟨[]⟩]⟩ [kimchiDemo]).2
     (by decide)⟩

/-! ## Bridges between the one-pass tallies and per-quantity counts -/

theorem cuisineStr_injective : Function.Injective cuisineStr := by
  intro a b h
  cases a <;> cases b <;> revert h <;> decide

theorem distTriple_foldl (dishes : List Dish) :
    ∀ (uids : List String) (a b c : List (String × Nat)),
      uids.foldl
        (fun acc uid =>
          match dishByUid dishes uid with
          | none => acc
          | some d =>
            ( ucInc acc.1 (cuisineStr d.cuisine)
            , ucInc acc.2.1 (regionStr d.region)
            , d.categories.foldl (fun m cat => ucInc m (categoryStr cat))
                acc.2.2))
        (a, b, c) =
      ( (resolvedDishes dishes uids).foldl
          (fun m d => ucInc m (cuisineStr d.cuisine)) a
      , (resolvedDishes dishes uids).foldl
          (fun m d => ucInc m (regionStr d.region)) b
      , (resolvedDishes dishes uids).foldl
          (fun m d =>
            d.categories.foldl (fun mm cat => ucInc mm (categoryStr cat)) m)
          c) := by
  intro uids
  induction uids with
  | nil => intro a b c; rfl
  | cons u rest ih =>
    intro a b c
    rw [List.foldl_cons]
    cases hu : dishByUid dishes u with
    | none =>
      simp only [hu]
      rw [ih]
      simp [resolvedDishes, List.filterMap_cons, hu]
    | some d =>
      simp only [hu]
      rw [ih]
      simp [resolvedDishes, List.filterMap_cons, hu]

theorem distTriple_cuisine (dishes : List Dish) (uids : List String) :
    (distTriple dishes uids).1 =
      buildCounter ((resolvedDishes dishes uids).map
        (fun d => cuisineStr d.cuisine)) := by
  rw [distTriple, distTriple_foldl]
  rw [buildCounter, List.foldl_map]

theorem distTriple_region (dishes : List Dish) (uids : List String) :
    (distTriple dishes uids).2.1 =
      buildCounter ((resolvedDishes dishes uids).map
        (fun d => regionStr d.region)) := by
  rw [distTriple, distTriple_foldl]
  rw [buildCounter, List.foldl_map]

theorem count_map_eq_countP (f : Dish → String) (l : List Dish) (b : String) :
    (l.map f).count b = l.countP (fun x => f x == b) := by
  induction l with
  | nil => rfl
  | cons x xs ih =>
    simp only [List.map_cons, List.count_cons, List.countP_cons, ih]

theorem regionStr_beq_eastern (r : Region) :
    (regionStr r == "eastern") = (r == Region.eastern) := by
  cases r <;> rfl

theorem regionStr_beq_western (r : Region) :
    (regionStr r == "western") = (r == Region.western) := by
  cases r <;> rfl

/-- The number of distinct cuisine strings tallied equals the number of
distinct cuisines among the resolvable placements. -/
theorem cuisine_tally_length (dishes : List Dish) (uids : List String) :
    (distTriple dishes uids).1.length =
      ((resolvedDishes dishes uids).map (fun d => d.cuisine)).dedup.length := by
  rw [distTriple_cuisine]
  have h1 := counter_length (counterFor_buildCounter
    ((resolvedDishes dishes uids).map (fun d => cuisineStr d.cuisine)))
  rw [h1]
  have h2 : (resolvedDishes dishes uids).map (fun d => cuisineStr d.cuisine) =
      ((resolvedDishes dishes uids).map (fun d => d.cuisine)).map cuisineStr := by
    rw [List.map_map]
    rfl
  rw [h2, List.dedup_map_of_injective cuisineStr_injective,
    List.length_map]

/-- The tallied "eastern" count is the number of resolvable placements of
Eastern dishes. -/
theorem region_tally_eastern (dishes : List Dish) (uids : List String) :
    ucGet (distTriple dishes uids).2.1 "eastern" =
      ((resolvedDishes dishes uids).filter
        (fun d => d.region == Region.eastern)).length := by
  rw [distTriple_region]
  rw [(counterFor_buildCounter _).1 "eastern"]
  rw [count_map_eq_countP, List.countP_eq_length_filter]
  congr 1
  apply List.filter_congr
  intro d hd
  rw [regionStr_beq_eastern]

/-- The tallied "western" count is the number of resolvable placements of
Western dishes. -/
theorem region_tally_western (dishes : List Dish) (uids : List String) :
    ucGet (distTriple dishes uids).2.1 "western" =
      ((resolvedDishes dishes uids).filter
        (fun d => d.region == Region.western)).length := by
  rw [distTriple_region]
  rw [(counterFor_buildCounter _).1 "western"]
  rw [count_map_eq_countP, List.countP_eq_length_filter]
  congr 1
  apply List.filter_congr
  intro d hd
  rw [regionStr_beq_western]

/-- Modelled from the spec, amended for the program's float arithmetic:
the variety-score formula with each component evaluated in correctly
rounded binary64 arithmetic — uniqueness `(unique/total) × 40` (0/0
treated as overall score 100), cuisine `min(30, (distinct_cuisines_used /
11) × 30)` and region balance `(min(e, w) / max(e, w)) × 30` (30 when the
total region count is zero) — and the final score the floor of the
float-evaluated sum. -/
def spec_variety_score_float (unique_count total_count distinct_cuisines
    eastern western : Nat) : Int :=
  if total_count = 0 then 100
  else
    ⌊fl (fl (fl (fl ((unique_count : ℚ) / (total_count : ℚ)) * 40) +
        min 30 (fl (fl ((distinct_cuisines : ℚ) / 11) * 30))) +
      (if eastern + western = 0 then (30 : ℚ)
       else fl (fl ((min eastern western : ℚ) /
         ((max eastern western : ℚ))) * 30)))⌋

/-- A dish for the rounding counterexample: one Western (Italian) dish. -/
def pastaDemo : Dish := ⟨"i1", "Pasta", [], Cuisine.italian, [], ""⟩

/-- A plan with 22 placements of 15 distinct identifiers, exactly one of
which resolves (to the Italian dish): unique 15, total 22, one Western
placement. -/
def roundingPlanDemo : MealPlan :=
  ⟨"P4", "Rounding",
    [⟨["g1", "g1", "g1", "g1", "g1", "g1", "g1", "g1",
       "g2", "g3", "g4", "g5", "g6", "g7", "g8", "g9", "g10", "g11",
       "g12", "g13", "g14", "i1"]⟩]⟩

/-- C2 counterexample: at `unique = 15`, `total = 22`, one resolved Western
placement, the program's float evaluation computes
`int(27.27272727272727 + 2.7272727272727275 + 0.0)
  = int(29.999999999999996) = 29`,
while the floor of the exact component sum `300/11 + 30/11 + 0 = 30` is 30
(`spec_variety_score` formalises the claim's exact formula), so "the
variety score equals the floor of the sum of the three components" fails
as stated. -/
theorem variety_score_exact_floor_cex :
    (assess_variety roundingPlanDemo [pastaDemo]).variety_score = 29 ∧
    (assess_variety roundingPlanDemo [pastaDemo]).unique_dish_count = 15 ∧
    (assess_variety roundingPlanDemo [pastaDemo]).total_dish_count = 22 ∧
    ((resolvedDishes [pastaDemo] roundingPlanDemo.all_dish_uids).map
      (fun d => d.cuisine)).dedup.length = 1 ∧
    ((resolvedDishes [pastaDemo] roundingPlanDemo.all_dish_uids).filter
      (fun d => d.region == Region.eastern)).length = 0 ∧
    ((resolvedDishes [pastaDemo] roundingPlanDemo.all_dish_uids).filter
      (fun d => d.region == Region.western)).length = 1 ∧
    spec_variety_score 15 22 1 0 1 = 30 := by
  refine ⟨by decide, by decide, by decide, by decide, by decide, by decide,
    ?_⟩
  rw [spec_variety_score]
  norm_num

/-- C2 amended: for every plan and catalogue, the variety score equals the
floor of the IEEE-754 binary64 evaluation of the sum of the three spec
components (each arithmetic operation correctly rounded), with the
distinct cuisines and region counts ranging over the placements that
resolve in the catalogue; the float evaluation can land below the exact
rational sum, so this floor can differ from the exact-formula floor (29
vs 30 at the counterexample). -/
theorem variety_score_matches_float_spec (plan : MealPlan)
    (dishes : List Dish) :
    (assess_variety plan dishes).variety_score =
      spec_variety_score_float
        (assess_variety plan dishes).unique_dish_count
        (assess_variety plan dishes).total_dish_count
        (((resolvedDishes dishes plan.all_dish_uids).map
          (fun d => d.cuisine)).dedup.length)
        (((resolvedDishes dishes plan.all_dish_uids).filter
          (fun d => d.region == Region.eastern)).length)
        (((resolvedDishes dishes plan.all_dish_uids).filter
          (fun d => d.region == Region.western)).length) := by
  rw [assess_score_eq, assess_unique_eq, assess_total_eq]
  rw [calculate_variety_score, spec_variety_score_float]
  by_cases ht : plan.all_dish_uids.length = 0
  · rw [if_pos ht, if_pos ht]
  · rw [if_neg ht, if_neg ht]
    dsimp only
    simp only [Nat.cast_ofNat]
    rw [← cuisine_tally_length dishes plan.all_dish_uids]
    rw [← region_tally_eastern dishes plan.all_dish_uids]
    rw [← region_tally_western dishes plan.all_dish_uids]
    have hA0 : (0 : ℚ) ≤
        fl (fl (((buildCounter plan.all_dish_uids).length : ℚ) /
          (plan.all_dish_uids.length : ℚ)) * 40) :=
      uniq_comp_nonneg _ _ (by positivity) (by positivity)
    have hB0 : (0 : ℚ) ≤
        min 30 (fl (fl
          (((distTriple dishes plan.all_dish_uids).1.length : ℚ) / 11)
          * 30)) :=
      le_min (by norm_num)
        (fl_nonneg (mul_nonneg (fl_nonneg (by positivity)) (by norm_num)))
    by_cases hz : ucGet (distTriple dishes plan.all_dish_uids).2.1 "eastern" +
        ucGet (distTriple dishes plan.all_dish_uids).2.1 "western" = 0
    · rw [if_pos hz, if_pos hz]
      rw [pyInt_eq_floor _ (fl_nonneg (add_nonneg
        (fl_nonneg (add_nonneg hA0 hB0)) (by norm_num)))]
    · rw [if_neg hz, if_neg hz]
      have hmax : 0 < max
          (ucGet (distTriple dishes plan.all_dish_uids).2.1 "eastern")
          (ucGet (distTriple dishes plan.all_dish_uids).2.1 "western") := by
        omega
      rw [if_pos hmax]
      have hC0 : (0 : ℚ) ≤
          fl (fl (min
            ((ucGet (distTriple dishes plan.all_dish_uids).2.1 "eastern" : ℚ))
            ((ucGet (distTriple dishes plan.all_dish_uids).2.1 "western" : ℚ)) /
           max
            ((ucGet (distTriple dishes plan.all_dish_uids).2.1 "eastern" : ℚ))
            ((ucGet (distTriple dishes plan.all_dish_uids).2.1 "western" : ℚ)))
            * 30) :=
        fl_nonneg (mul_nonneg (fl_nonneg (by positivity)) (by norm_num))
      rw [pyInt_eq_floor _ (fl_nonneg (add_nonneg
        (fl_nonneg (add_nonneg hA0 hB0)) hC0))]

/-! ## Suggestion engine lemmas -/

theorem suggest_fold_mem_mono (dishes : List Dish) :
    ∀ (l : List (String × Nat)) (acc : List String) (x : String),
      x ∈ acc →
      x ∈ l.foldl
        (fun acc p =>
          match dishByUid dishes p.1 with
          | some d => acc ++ [repeatedMsg d.name p.2]
          | none => acc) acc := by
  intro l
  induction l with
  | nil => intro acc x hx; simpa using hx
  | cons p rest ih =>
    intro acc x hx
    rw [List.foldl_cons]
    apply ih
    cases hd : dishByUid dishes p.1 with
    | none => simpa [hd] using hx
    | some d =>
      simp only [hd]
      exact List.mem_append.mpr (Or.inl hx)

theorem suggest_fold_mem (dishes : List Dish) :
    ∀ (l : List (String × Nat)) (acc : List String) (uid : String) (n : Nat)
      (d : Dish), (uid, n) ∈ l → dishByUid dishes uid = some d →
      repeatedMsg d.name n ∈ l.foldl
        (fun acc p =>
          match dishByUid dishes p.1 with
          | some d => acc ++ [repeatedMsg d.name p.2]
          | none => acc) acc := by
  intro l
  induction l with
  | nil => intro acc uid n d hm hd; simp at hm
  | cons p rest ih =>
    intro acc uid n d hm hd
    rw [List.foldl_cons]
    rcases List.mem_cons.mp hm with heq | hrest
    · rw [← heq]
      simp only [hd]
      exact suggest_fold_mem_mono dishes rest _ _ (by simp)
    · exact ih _ uid n d hrest hd

/-- C8 counterexample: a report whose `repeated_dishes` names an identifier
that resolves to no dish in the supplied catalogue produces no suggestion
for that entry — the only emitted message is the (independently firing)
low-cuisine-variety rule's, so "one suggestion message for each entry of
`repeated_dishes`" fails as stated. -/
theorem suggest_skips_unresolvable_cex :
    ghostReportDemo.repeated_dishes = [("ghost", 3)] ∧
    suggest_improvements ghostReportDemo [] = [fewCuisinesMsg 0] :=
  ⟨rfl, rfl⟩

/-- C8 amended: `suggest_improvements` emits the repeated-dish message —
naming the dish and its occurrence count — for each entry of
`repeated_dishes` whose identifier resolves in the supplied catalogue
(unresolvable entries are silently skipped), and the rules fire
independently: the low-cuisine-variety rule, for instance, emits its
message regardless of the other rules. -/
theorem suggest_improvements_amended (report : VarietyReport)
    (dishes : List Dish) :
    (∀ uid n d, (uid, n) ∈ report.repeated_dishes →
      dishByUid dishes uid = some d →
      repeatedMsg d.name n ∈ suggest_improvements report dishes) ∧
    (report.cuisine_distribution.length < 3 →
      fewCuisinesMsg report.cuisine_distribution.length ∈
        suggest_improvements report dishes) := by
  constructor
  · intro uid n d hm hd
    simp only [suggest_improvements]
    apply List.mem_append.mpr
    left
    apply List.mem_append.mpr
    left
    apply List.mem_append.mpr
    left
    exact suggest_fold_mem dishes report.repeated_dishes [] uid n d hm hd
  · intro h
    simp only [suggest_improvements]
    apply List.mem_append.mpr
    left
    apply List.mem_append.mpr
    right
    simp [h]

/-- Witness for the amended C8: the five-fold Kimchi plan gets both its
repeated-dish message and, independently, the low-cuisine-variety
message. -/
theorem suggest_improvements_amended_witness :
    repeatedMsg "Kimchi" 5 ∈
      suggest_improvements (assess_variety plan5Demo [kimchiDemo])
        [kimchiDemo] ∧
    fewCuisinesMsg 1 ∈
      suggest_improvements (assess_variety plan5Demo [kimchiDemo])
        [kimchiDemo] := by
  have h := suggest_improvements_amended
    (assess_variety plan5Demo [kimchiDemo]) [kimchiDemo]
  refine ⟨h.1 "K1" 5 kimchiDemo (by decide) (by decide), ?_⟩
  have hlen :
      (assess_variety plan5Demo [kimchiDemo]).cuisine_distribution.length = 1 := by
    decide
  have h2 := h.2 (by rw [hlen]; omega)
  rw [hlen] at h2
  exact h2

end MealPlanning
